import Mathlib

/-!
# Iterator adaptors of package `iterate` (src/iterate/iterate.go)

A Go closure is embedded as a function on an explicit state `W` (the variables
the closure can reach): a call takes the state before the call and returns its
results together with the state after it.  A value of the Go interface type
`error` is an `Option GoError`, `none` being `nil`.  A Go slice is a `List`.
The zero value `*new(T)` is `default`.

The drivers loop until the producer stops, so each driver takes a bound on the
number of loop iterations and returns `none` when the bound is reached before
the Go function returns.
-/

namespace iterate

/-- Non-nil values of the Go interface type `error`.  `EOF` is the sentinel
`io.EOF`; `errorString id` is an error made by `errors.New` (each with its own
identity); `wrapError id err` is an error whose `Unwrap` method returns `err`,
as made by `fmt.Errorf` with the verb `%w`. -/
inductive GoError where
  | EOF : GoError
  | errorString (id : Nat) : GoError
  | wrapError (id : Nat) (err : GoError) : GoError
  deriving DecidableEq

/-- The standard library function `errors.Is(err, target)` on non-nil errors:
walks the `Unwrap` chain of `err` and reports whether some error on it is equal
to `target`. -/
def errorsIs : GoError → GoError → Bool
  | GoError.wrapError id err, target =>
    decide (GoError.wrapError id err = target) || errorsIs err target
  | err, target => decide (err = target)

section drivers

variable {W T U : Type}

/-- `Iterate(next, emit)`, iterate.go lines 18-31.  The result is the returned
error and the state the function leaves behind. -/
def Iterate (next : W → (T × Option GoError) × W) (emit : T → W → Option GoError × W) :
    Nat → W → Option (Option GoError × W)
  | 0, _ => none
  | fuel + 1, w =>
    match next w with
    | ((_, some err), w1) =>
      if !errorsIs err GoError.EOF then some (some err, w1) else some (none, w1)
    | ((x, none), w1) =>
      match emit x w1 with
      | (some err, w2) => some (some err, w2)
      | (none, w2) => Iterate next emit fuel w2

/-- `Transform(next, f)`, iterate.go lines 34-42: the closure it returns. -/
def Transform [Inhabited U] (next : W → (T × Option GoError) × W)
    (f : T → W → (U × Option GoError) × W) : W → (U × Option GoError) × W :=
  fun w =>
    match next w with
    | ((_, some err), w1) => ((default, some err), w1)
    | ((x, none), w1) => f x w1

/-- The `for` loop of `Reduce`, iterate.go lines 47-59, with the current value
of the variable `y`. -/
def ReduceLoop (next : W → (T × Option GoError) × W)
    (f : T → U → W → (U × Option GoError) × W) :
    Nat → U → W → Option ((U × Option GoError) × W)
  | 0, _, _ => none
  | fuel + 1, y, w =>
    match next w with
    | ((_, some err), w1) =>
      if !errorsIs err GoError.EOF then some ((y, some err), w1) else some ((y, none), w1)
    | ((x, none), w1) =>
      match f x y w1 with
      | ((y1, some err), w2) => some ((y1, some err), w2)
      | ((y1, none), w2) => ReduceLoop next f fuel y1 w2

/-- `Reduce(next, init, f)`, iterate.go lines 45-61. -/
def Reduce (next : W → (T × Option GoError) × W) (init : U)
    (f : T → U → W → (U × Option GoError) × W) (fuel : Nat) (w : W) :
    Option ((U × Option GoError) × W) :=
  ReduceLoop next f fuel init w

/-- The `for` loop of `ToSlice`, iterate.go lines 80-89, with the current value
of the variable `s`. -/
def ToSliceLoop (next : W → (T × Option GoError) × W) :
    Nat → List T → W → Option ((List T × Option GoError) × W)
  | 0, _, _ => none
  | fuel + 1, s, w =>
    match next w with
    | ((_, some err), w1) =>
      if !errorsIs err GoError.EOF then some ((s, some err), w1) else some ((s, none), w1)
    | ((x, none), w1) => ToSliceLoop next fuel (s ++ [x]) w1

/-- `ToSlice(next)`, iterate.go lines 78-90. -/
def ToSlice (next : W → (T × Option GoError) × W) (fuel : Nat) (w : W) :
    Option ((List T × Option GoError) × W) :=
  ToSliceLoop next fuel [] w

end drivers

/-- A closure returned by a source constructor: the initial values of the
variables it captured and the body run by each call. -/
structure Closure (σ α : Type) where
  captured : σ
  call : σ → α × σ

/-- `SliceElems(s)`, iterate.go lines 64-75.  The captured variable is the
cursor `i`. -/
def SliceElems {T : Type} [Inhabited T] (s : List T) : Closure Nat (T × Option GoError) where
  captured := 0
  call := fun i =>
    if h : s.length ≤ i then ((default, some GoError.EOF), i)
    else ((s.get ⟨i, by omega⟩, none), i + 1)

/-- The position of a `reflect.MapIter` after `if !iter.Next() { iter = nil }`,
given the entries the iteration has not reached yet: the entry the iterator is
on and the entries after it, or `none` when `Next` returned false and `iter` was
set to nil. -/
def mapIterNext {K V : Type} : List (K × V) → Option ((K × V) × List (K × V))
  | [] => none
  | entry :: rest => some (entry, rest)

/-- `MapKeys(m)`, iterate.go lines 94-109.  The map is given by its entries in
the order in which `reflect.Value.MapRange` goes through them this time; the
captured variable is `iter`. -/
def MapKeys {K V : Type} [Inhabited K] (m : List (K × V)) :
    Closure (Option ((K × V) × List (K × V))) (K × Option GoError) where
  captured := mapIterNext m
  call := fun iter =>
    match iter with
    | none => ((default, some GoError.EOF), none)
    | some (entry, rest) => ((entry.1, none), mapIterNext rest)

/-- `MapElems(m)`, iterate.go lines 113-128. -/
def MapElems {K V : Type} [Inhabited V] (m : List (K × V)) :
    Closure (Option ((K × V) × List (K × V))) (V × Option GoError) where
  captured := mapIterNext m
  call := fun iter =>
    match iter with
    | none => ((default, some GoError.EOF), none)
    | some (entry, rest) => ((entry.2, none), mapIterNext rest)

/-- `Map(m)`, iterate.go lines 132-148.  The three results `(k, v, err)` are the
pair `((k, v), err)`. -/
def Map {K V : Type} [Inhabited K] [Inhabited V] (m : List (K × V)) :
    Closure (Option ((K × V) × List (K × V))) ((K × V) × Option GoError) where
  captured := mapIterNext m
  call := fun iter =>
    match iter with
    | none => (((default, default), some GoError.EOF), none)
    | some (entry, rest) => ((entry, none), mapIterNext rest)

/-- The index expression `v, ok := m[k]` on a map given by its entries, with
`eq` the operator `==` of the key type: the value of the entry whose key is `==`
to `k`, or `none` when there is no such entry (`m[k]` is then the zero value). -/
def mapIndex {K V : Type} (eq : K → K → Bool) : List (K × V) → K → Option V
  | [], _ => none
  | entry :: rest, k => if eq entry.1 k then some entry.2 else mapIndex eq rest k

/-- A Go channel: the values sent and not yet received, oldest first, the
buffering depth, and whether the channel was closed. -/
structure Channel (T : Type) where
  queue : List T
  depth : Nat
  closed : Bool
  deriving DecidableEq

/-- The receive `x, ok := <-c`: the oldest value and `true`; on a closed channel
with nothing left the zero value and `false`; `none` when the receive blocks,
the channel being empty and open. -/
def Channel.recv {T : Type} [Inhabited T] (c : Channel T) : Option ((T × Bool) × Channel T) :=
  match c.queue with
  | v :: rest => some ((v, true), { c with queue := rest })
  | [] => if c.closed then some ((default, false), c) else none

/-- `Chan(c)`, iterate.go lines 152-160: a call of the closure it returns, on the
state of the channel; `none` when the call blocks. -/
def Chan {T : Type} [Inhabited T] (c : Channel T) : Option ((T × Option GoError) × Channel T) :=
  match c.recv with
  | none => none
  | some ((x, ok), c1) => if !ok then some ((x, some GoError.EOF), c1) else some ((x, none), c1)

/-- The closure `Chan(c)` on the channels that are closed, where no call blocks:
the result of `Chan` itself. -/
def ChanClosed {T : Type} [Inhabited T] (c : { c : Channel T // c.closed = true }) :
    (T × Option GoError) × { c : Channel T // c.closed = true } :=
  match h : Chan c.1 with
  | some r => (r.1, ⟨r.2, by
      obtain ⟨⟨q, d, cl⟩, hc⟩ := c
      cases q with
      | nil =>
        simp only [Chan, Channel.recv] at h
        simp only at hc
        subst hc
        simp at h
        rw [← h]
      | cons v rest =>
        simp only [Chan, Channel.recv] at h
        simp at h
        rw [← h]
        exact hc⟩)
  | none => False.elim (by
      obtain ⟨⟨q, d, cl⟩, hc⟩ := c
      cases q with
      | nil =>
        simp only [Chan, Channel.recv] at h
        simp only at hc
        subst hc
        simp at h
      | cons v rest =>
        simp only [Chan, Channel.recv] at h
        simp at h)

/-- A `context.Context` as seen on the state `W`: `err` is `ctx.Err()`, which is
nil until the context is done; the channel `ctx.Done()` is closed exactly when
`ctx.Err()` is non-nil. -/
structure Context (W : Type) where
  err : W → Option GoError

/-- The sending end of a channel as seen on the state `W`: `ready` tells whether
a send can proceed now; `send x` gives the state after the send of `x` has
proceeded, `none` when it panics (the channel is closed). -/
structure SendChan (W T : Type) where
  ready : W → Bool
  send : T → W → Option W

/-- The rest of the program as seen from a goroutine in a `select`: `pick` is
the choice the runtime makes between the two cases when both can proceed (`true`
for the first case), and `idle` is what the other goroutines do while this one
is blocked. -/
structure Scheduler (W : Type) where
  pick : W → Bool × W
  idle : W → W

/-- The case a `select` went through. -/
inductive Selected where
  | done : Selected
  | sent : Selected
  deriving DecidableEq

section pump

variable {W T : Type}

/-- The `select` of `ToChanCtx`, iterate.go lines 223-227, with a bound on the
time spent blocked: a case that can proceed is taken, the runtime picks when both
can, and the goroutine blocks while none can.  `none` when the statement is
still blocked at the bound or the send panics. -/
def selectSend (sched : Scheduler W) (ctx : Context W) (c : SendChan W T) (x : T) :
    Nat → W → Option (Selected × W)
  | 0, _ => none
  | patience + 1, w =>
    match ctx.err w with
    | some _ =>
      if c.ready w then
        if (sched.pick w).1 then some (Selected.done, (sched.pick w).2)
        else (c.send x (sched.pick w).2).map (fun w1 => (Selected.sent, w1))
      else some (Selected.done, w)
    | none =>
      if c.ready w then (c.send x w).map (fun w1 => (Selected.sent, w1))
      else selectSend sched ctx c x patience (sched.idle w)

/-- `ToChanCtx(ctx, c, next)`, iterate.go lines 213-229. -/
def ToChanCtx (sched : Scheduler W) (ctx : Context W) (c : SendChan W T)
    (next : W → (T × Option GoError) × W) : Nat → W → Option ((T × Option GoError) × W)
  | 0, _ => none
  | fuel + 1, w =>
    match next w with
    | ((x, some err), w1) =>
      if !errorsIs err GoError.EOF then some ((x, some err), w1) else some ((x, none), w1)
    | ((x, none), w1) =>
      match selectSend sched ctx c x (fuel + 1) w1 with
      | none => none
      | some (Selected.done, w2) => some ((x, ctx.err w2), w2)
      | some (Selected.sent, w2) => ToChanCtx sched ctx c next fuel w2

end pump

/-! ## Vocabulary of the claims -/

section vocabulary

variable {W σ ρ T U α : Type}

/-- The producer `next`, called from state `s`, returns the values `vs` in this
order, each with a nil error, and is then in state `t`. -/
def Yields (next : σ → (T × Option GoError) × σ) : σ → List T → σ → Prop
  | s, [], t => s = t
  | s, v :: vs, t => ∃ s1, next s = ((v, none), s1) ∧ Yields next s1 vs t

/-- The consumer `emit`, called from state `r` on the values `vs` in this order,
returns a nil error each time and is then in state `t`. -/
def Accepts (emit : T → ρ → Option GoError × ρ) : ρ → List T → ρ → Prop
  | r, [], t => r = t
  | r, v :: vs, t => ∃ r1, emit v r = (none, r1) ∧ Accepts emit r1 vs t

/-- The loop of `Reduce` runs `n` full iterations, none of which returns: each
pull and each call of `f` gives a nil error.  The pairs are the variable `y`
and the state, before and after. -/
def Folds (next : W → (T × Option GoError) × W) (f : T → U → W → (U × Option GoError) × W) :
    Nat → U × W → U × W → Prop
  | 0, a, b => a = b
  | n + 1, a, b =>
    ∃ x w1 y1 w2, next a.2 = ((x, none), w1) ∧ f x a.1 w1 = ((y1, none), w2) ∧
      Folds next f n (y1, w2) b

/-- The state of a closure after `n` calls from state `s`. -/
def afterCalls (call : σ → α × σ) : Nat → σ → σ
  | 0, s => s
  | n + 1, s => afterCalls call n (call s).2

/-- A call observed by a recording test double. -/
inductive Event (T : Type) where
  | pull (x : T) (err : Option GoError) : Event T
  | call (x : T) : Event T
  deriving DecidableEq

/-- A producer that appends each of its calls, with what the call returned, to
a log kept next to the state. -/
def recordPull (next : W → (T × Option GoError) × W) :
    W × List (Event T) → (T × Option GoError) × (W × List (Event T)) :=
  fun wl => ((next wl.1).1, ((next wl.1).2, wl.2 ++ [Event.pull (next wl.1).1.1 (next wl.1).1.2]))

/-- A callback (`emit` of `Iterate`, `f` of `Transform`) that appends each of
its calls, with the argument, to the log. -/
def recordCall (f : T → W → α × W) : T → W × List (Event T) → α × (W × List (Event T)) :=
  fun x wl => ((f x wl.1).1, ((f x wl.1).2, wl.2 ++ [Event.call x]))

/-- A closure that runs on the state and leaves the log alone. -/
def unrecorded (m : W → α × W) : W × List (Event T) → α × (W × List (Event T)) :=
  fun wl => ((m wl.1).1, ((m wl.1).2, wl.2))

/-- A closure over the producer's variables, run in a state that also holds the
consumer's. -/
def onSource (next : σ → α × σ) : σ × ρ → α × (σ × ρ) :=
  fun w => ((next w.1).1, ((next w.1).2, w.2))

/-- A callback over the consumer's variables, run in a state that also holds
the producer's. -/
def onSink (emit : T → ρ → α × ρ) : T → σ × ρ → α × (σ × ρ) :=
  fun x w => ((emit x w.2).1, (w.1, (emit x w.2).2))

/-- A fold function without side effects, as a callback on any state. -/
def pureFold (f : T → U → U × Option GoError) : T → U → W → (U × Option GoError) × W :=
  fun x y w => (f x y, w)

/-- The log of a run in which each of `vs` is pulled and then handed to the
callback before the next pull. -/
def alternating : List T → List (Event T)
  | [] => []
  | v :: vs => Event.pull v none :: Event.call v :: alternating vs

/-- Number of producer calls in a log. -/
def pulls : List (Event T) → Nat
  | [] => 0
  | Event.pull _ _ :: l => pulls l + 1
  | Event.call _ :: l => pulls l

/-- Arguments of the callback calls in a log, oldest first. -/
def calls : List (Event T) → List T
  | [] => []
  | Event.pull _ _ :: l => calls l
  | Event.call x :: l => x :: calls l

/-- State of a consumer after it was called on each of `vs` in this order. -/
def fed (emit : T → ρ → Option GoError × ρ) : List T → ρ → ρ
  | [], r => r
  | v :: vs, r => fed emit vs (emit v r).2

/-- The result of a producer call reports exhaustion: its error is non-nil and
`errors.Is(err, io.EOF)` holds, the test the drivers make. -/
def isExhausted (r : T × Option GoError) : Bool :=
  match r.2 with
  | some err => errorsIs err GoError.EOF
  | none => false

/-- The idempotent-tail property of a producer: once a call has reported
exhaustion, every later call reports exhaustion too. -/
def IdempotentTail (next : W → (T × Option GoError) × W) : Prop :=
  ∀ w, isExhausted (next w).1 = true →
    ∀ n, isExhausted (next (afterCalls next n (next w).2)).1 = true

/-- The function `f`, called from state `r` on the values `xs` in this order,
returns the values `us` with a nil error each time and is then in state `t`. -/
def Maps (f : T → ρ → (U × Option GoError) × ρ) : ρ → List T → List U → ρ → Prop
  | r, [], us, t => us = [] ∧ r = t
  | r, x :: xs, us, t =>
    ∃ u r1 us1, f x r = ((u, none), r1) ∧ us = u :: us1 ∧ Maps f r1 xs us1 t

/-- A goroutine blocked in the `select` of `ToChanCtx` in state `w` stays blocked
for `j` steps of the other goroutines and is then in state `t`: at each of these
steps the context is not done and the send cannot proceed. -/
def StaysBlocked (sched : Scheduler W) (ctx : Context W) (c : SendChan W T) :
    Nat → W → W → Prop
  | 0, w, t => w = t
  | j + 1, w, t =>
    ctx.err w = none ∧ c.ready w = false ∧ StaysBlocked sched ctx c j (sched.idle w) t

/-- The context is not done and the channel accepts each send: from state `r`,
for each of `vs` in this order, a `select` waits for the channel, finds it ready
while the context is still not done, and the send proceeds; `t` is the state
after the last send. -/
def Delivers (sched : Scheduler W) (ctx : Context W) (c : SendChan W T) :
    W → List T → W → Prop
  | r, [], t => r = t
  | r, v :: vs, t =>
    ∃ j r1 r2, StaysBlocked sched ctx c j r r1 ∧ ctx.err r1 = none ∧ c.ready r1 = true ∧
      c.send v r1 = some r2 ∧ Delivers sched ctx c r2 vs t

/-- The loop of `ToChanCtx` runs one full iteration for each of `vs`: the pull
returns the value with a nil error, and the `select` sends it while the context
is not done. -/
def Pumps (sched : Scheduler W) (ctx : Context W) (c : SendChan W T)
    (next : W → (T × Option GoError) × W) : W → List T → W → Prop
  | w, [], t => w = t
  | w, v :: vs, t =>
    ∃ w1 j w2 w3, next w = ((v, none), w1) ∧ StaysBlocked sched ctx c j w1 w2 ∧
      ctx.err w2 = none ∧ c.ready w2 = true ∧ c.send v w2 = some w3 ∧
      Pumps sched ctx c next w3 vs t

/-- A context over the variables of the channel side, seen in a state that also
holds the producer's variables. -/
def onSinkCtx (ctx : Context ρ) : Context (σ × ρ) where
  err := fun w => ctx.err w.2

/-- A channel over the variables of the channel side, seen in a state that also
holds the producer's variables. -/
def onSinkChan (c : SendChan ρ T) : SendChan (σ × ρ) T where
  ready := fun w => c.ready w.2
  send := fun x w => (c.send x w.2).map (fun r => (w.1, r))

/-- A scheduler over the variables of the channel side, seen in a state that
also holds the producer's variables. -/
def onSinkSched (sched : Scheduler ρ) : Scheduler (σ × ρ) where
  pick := fun w => ((sched.pick w.2).1, (w.1, (sched.pick w.2).2))
  idle := fun w => (w.1, sched.idle w.2)

end vocabulary

/-! ## Concrete callbacks and producers for the worked examples -/

/-- A transform function without side effects that doubles and never fails. -/
def twice : Nat → Nat → (Nat × Option GoError) × Nat :=
  fun x w => ((x * 2, none), w)

/-- The fold function `(x, acc) -> acc + x`, which never fails. -/
def plus : Nat → Nat → Nat × Option GoError :=
  fun x acc => (acc + x, none)

/-- A fold function that always fails, returning `acc + x + 41` next to the
error. -/
def failingFold : Nat → Nat → Nat × Option GoError :=
  fun x acc => (acc + x + 41, some (GoError.errorString 7))

/-- A fold function that adds, except that on the value 11 it fails and returns
1000 next to the error. -/
def failOnEleven : Nat → Nat → Nat × Option GoError :=
  fun x acc => if x = 11 then (1000, some (GoError.errorString 5)) else (acc + x, none)

/-- A consumer that adds each value to a running total and never fails. -/
def summing : Nat → Nat → Option GoError × Nat :=
  fun x total => (none, total + x)

/-- A consumer that counts its calls and fails on the third one. -/
def failOnThird : Nat → Nat → Option GoError × Nat :=
  fun _ n => (if n + 1 = 3 then some (GoError.errorString 3) else none, n + 1)

/-- The keys of type `float64` as far as `==` tells them apart: the numbers
(here the naturals) and NaN. -/
inductive FloatKey where
  | num (n : Nat) : FloatKey
  | nan : FloatKey
  deriving DecidableEq, Inhabited

/-- The operator `==` on `float64` keys: NaN is not equal to anything, itself
included. -/
def floatEq : FloatKey → FloatKey → Bool
  | FloatKey.num a, FloatKey.num b => decide (a = b)
  | _, _ => false

/-- The error `context.Canceled`. -/
def contextCanceled : GoError := GoError.errorString 0

/-- A channel and a context together with the one other goroutine of the worked
examples, a receiver that takes `demand` more values from the channel and, on
taking the last of them, cancels the context and stops.  `taken` holds what it
has received, `ctxErr` is `ctx.Err()`, and `picks` are the choices the runtime
is going to make in the selects where both cases can proceed. -/
structure Wire (T : Type) where
  chan : Channel T
  demand : Nat
  taken : List T
  ctxErr : Option GoError
  picks : List Bool
  deriving DecidableEq

/-- The context of a `Wire`. -/
def wireCtx {T : Type} : Context (Wire T) where
  err := fun w => w.ctxErr

/-- The sending end of the channel of a `Wire`: a send can proceed when the
receiver is waiting or the buffer has room (or the channel is closed, and the
send panics).  While the receiver wants values it takes the oldest one at once. -/
def wireChan {T : Type} : SendChan (Wire T) T where
  ready := fun w => w.chan.closed || decide (0 < w.demand) ||
    decide (w.chan.queue.length < w.chan.depth)
  send := fun x w =>
    if w.chan.closed then none
    else if 0 < w.demand then
      some { w with
        chan := { w.chan with queue := (w.chan.queue ++ [x]).drop 1 }
        taken := w.taken ++ (w.chan.queue ++ [x]).take 1
        demand := w.demand - 1
        ctxErr := if w.demand = 1 then some contextCanceled else w.ctxErr }
    else some { w with chan := { w.chan with queue := w.chan.queue ++ [x] } }

/-- The scheduler of a `Wire`: the runtime takes its next recorded choice (the
first case when none is left), and nothing else runs while the pump is blocked. -/
def wireSched {T : Type} : Scheduler (Wire T) where
  pick := fun w => (w.picks.headD true, { w with picks := w.picks.tail })
  idle := fun w => w

/-- A scheduler for a `Wire` in which, while the pump is blocked, another
goroutine cancels the context. -/
def cancelWhileBlocked {T : Type} : Scheduler (Wire T) where
  pick := fun w => (w.picks.headD true, { w with picks := w.picks.tail })
  idle := fun w => { w with ctxErr := some contextCanceled }

/-- A transform function that reports `io.EOF` on the value 1 and passes every
other value through. -/
def eofOnOne {W : Type} : Nat → W → (Nat × Option GoError) × W :=
  fun x w => if x = 1 then ((0, some GoError.EOF), w) else ((x, none), w)

/-- A transform function that counts its calls and fails on the second one with
an error that wraps `io.EOF`; on the other calls it multiplies by ten. -/
def wrapsEOFOnSecond : Nat → Nat → (Nat × Option GoError) × Nat :=
  fun x n =>
    if n + 1 = 2 then ((0, some (GoError.wrapError 9 GoError.EOF)), n + 1)
    else ((x * 10, none), n + 1)

/-- A producer that returns 10 and 11 and then fails, on every later call, with
an error that is not `io.EOF`, returning 99 next to it. -/
def flaky : Nat → (Nat × Option GoError) × Nat :=
  fun i => if i < 2 then ((10 + i, none), i + 1) else ((99, some (GoError.errorString 1)), i + 1)


end iterate

/-! # Package `unsafeslice` (src/unsafeslice/unsafeslice.go)

Only the arithmetic of `Convert` on lengths and capacities is embedded: a slice
is seen as its length, its capacity and the size in bytes of its elements.  The
types `int` and `uintptr` are 64 bits wide; a `uintptr` is a natural number below
`2^64` and its arithmetic is taken modulo `2^64`. -/

namespace unsafeslice

/-- The ways in which a call of `Convert` panics. -/
inductive Panic where
  | divideByZero : Panic
  | capNotMultiple : Panic
  | capOverflows : Panic
  | lenNotMultiple : Panic
  | lenOverflows : Panic
  | boundsOutOfRange : Panic
  deriving DecidableEq

/-- The conversion `int(v)` of a `uintptr` value: the same 64 bits read in
two's complement. -/
def toInt (v : Nat) : Int :=
  if v % 2 ^ 64 < 2 ^ 63 then ((v % 2 ^ 64 : Nat) : Int) else ((v % 2 ^ 64 : Nat) : Int) - 2 ^ 64

/-- The conversion `uintptr(i)` of an `int` value. -/
def toUintptr (i : Int) : Nat :=
  (i % 2 ^ 64).toNat

/-- `Convert[T1, T2](src)`, unsafeslice.go lines 40-64, for a slice `src` with
length `len`, capacity `cap` and elements of `srcElemSize` bytes, and a type `T2`
of `dstElemSize` bytes.  The result is the length and the capacity of the
returned slice, or the panic.  The operator `%` panics on a zero divisor, and
the slice expression `[:dstLen]` panics when `dstLen` exceeds the capacity. -/
def Convert (len cap srcElemSize dstElemSize : Nat) : Except Panic (Nat × Nat) :=
  let capBytes := (cap * srcElemSize) % 2 ^ 64
  let lenBytes := (len * srcElemSize) % 2 ^ 64
  if dstElemSize = 0 then Except.error Panic.divideByZero
  else if capBytes % dstElemSize ≠ 0 then Except.error Panic.capNotMultiple
  else
    let dstCap := capBytes / dstElemSize
    if toInt dstCap < 0 ∨ toUintptr (toInt dstCap) ≠ dstCap then
      Except.error Panic.capOverflows
    else if lenBytes % dstElemSize ≠ 0 then Except.error Panic.lenNotMultiple
    else
      let dstLen := lenBytes / dstElemSize
      if toInt dstLen < 0 ∨ toUintptr (toInt dstLen) ≠ dstLen then
        Except.error Panic.lenOverflows
      else if dstCap < dstLen then Except.error Panic.boundsOutOfRange
      else Except.ok (dstLen, dstCap)

end unsafeslice

namespace iterate

/-! ## Lemmas on the loops -/

section loops

variable {W T U : Type}

theorem ToSliceLoop_yields (next : W → (T × Option GoError) × W) (vs : List T) :
    ∀ (s t : W) (acc : List T) (k : Nat), Yields next s vs t →
      ToSliceLoop next (vs.length + k) acc s = ToSliceLoop next k (acc ++ vs) t := by
  induction vs with
  | nil =>
    intro s t acc k h
    simp only [Yields] at h
    subst h
    simp
  | cons v vs ih =>
    intro s t acc k h
    obtain ⟨s1, h1, h2⟩ := h
    have hlen : (v :: vs).length + k = (vs.length + k) + 1 := by simp; omega
    rw [hlen, ToSliceLoop, h1]
    simp only
    rw [ih s1 t (acc ++ [v]) k h2]
    simp

theorem ToSliceLoop_stop (next : W → (T × Option GoError) × W) (t t1 : W) (x : T)
    (e : GoError) (acc : List T) (k : Nat) (he : next t = ((x, some e), t1)) :
    ToSliceLoop next (k + 1) acc t =
      some ((acc, if errorsIs e GoError.EOF then none else some e), t1) := by
  rw [ToSliceLoop, he]
  cases h : errorsIs e GoError.EOF <;> simp [h]

theorem SliceElems_call_lt [Inhabited T] (s : List T) (i : Nat) (h : i < s.length) :
    (SliceElems s).call i = ((s.get ⟨i, h⟩, none), i + 1) := by
  simp only [SliceElems]
  rw [dif_neg (by omega)]

theorem SliceElems_call_ge [Inhabited T] (s : List T) (i : Nat) (h : s.length ≤ i) :
    (SliceElems s).call i = ((default, some GoError.EOF), i) := by
  simp only [SliceElems]
  rw [dif_pos h]

theorem SliceElems_yields_from [Inhabited T] (suf : List T) :
    ∀ pre : List T,
      Yields (SliceElems (pre ++ suf)).call pre.length suf (pre ++ suf).length := by
  induction suf with
  | nil => intro pre; simp [Yields]
  | cons v suf ih =>
    intro pre
    refine ⟨pre.length + 1, ?_, ?_⟩
    · rw [SliceElems_call_lt (pre ++ v :: suf) pre.length (by simp)]
      simp [List.getElem_append_right]
    · have h := ih (pre ++ [v])
      simpa using h

theorem SliceElems_yields [Inhabited T] (s : List T) :
    Yields (SliceElems s).call (SliceElems s).captured s s.length := by
  simpa [SliceElems] using SliceElems_yields_from s []

theorem pulls_append (l1 l2 : List (Event T)) : pulls (l1 ++ l2) = pulls l1 + pulls l2 := by
  induction l1 with
  | nil => simp [pulls]
  | cons ev l ih =>
    cases ev
    · simp [pulls, ih]; omega
    · simp [pulls, ih]

theorem calls_append (l1 l2 : List (Event T)) : calls (l1 ++ l2) = calls l1 ++ calls l2 := by
  induction l1 with
  | nil => simp [calls]
  | cons ev l ih => cases ev <;> simp [calls, ih]

theorem pulls_alternating (vs : List T) : pulls (alternating vs) = vs.length := by
  induction vs with
  | nil => simp [alternating, pulls]
  | cons v vs ih => simp [alternating, pulls, ih]

theorem calls_alternating (vs : List T) : calls (alternating vs) = vs := by
  induction vs with
  | nil => simp [alternating, calls]
  | cons v vs ih => simp [alternating, calls, ih]

theorem alternating_append (l1 l2 : List T) :
    alternating (l1 ++ l2) = alternating l1 ++ alternating l2 := by
  induction l1 with
  | nil => simp [alternating]
  | cons v vs ih => simp [alternating, ih]

theorem Iterate_steps {σ ρ : Type} (next : σ → (T × Option GoError) × σ)
    (emit : T → ρ → Option GoError × ρ) (vs : List T) :
    ∀ (s t : σ) (r r1 : ρ) (log : List (Event T)) (k : Nat),
      Yields next s vs t → Accepts emit r vs r1 →
      Iterate (recordPull (onSource next)) (recordCall (onSink emit)) (vs.length + k)
          ((s, r), log) =
        Iterate (recordPull (onSource next)) (recordCall (onSink emit)) k
          ((t, r1), log ++ alternating vs) := by
  induction vs with
  | nil =>
    intro s t r r1 log k hy ha
    simp only [Yields] at hy
    simp only [Accepts] at ha
    subst hy
    subst ha
    simp [alternating]
  | cons v vs ih =>
    intro s t r r1 log k hy ha
    obtain ⟨s1, h1, h2⟩ := hy
    obtain ⟨r2, g1, g2⟩ := ha
    have hlen : (v :: vs).length + k = (vs.length + k) + 1 := by simp; omega
    rw [hlen, Iterate]
    simp only [recordPull, onSource, recordCall, onSink, h1, g1]
    rw [ih s1 t r2 r1 _ k h2 g2]
    simp [alternating]

theorem Iterate_stop {σ ρ : Type} (next : σ → (T × Option GoError) × σ)
    (emit : T → ρ → Option GoError × ρ) (t t1 : σ) (r : ρ) (x : T) (e : GoError)
    (log : List (Event T)) (k : Nat) (he : next t = ((x, some e), t1)) :
    Iterate (recordPull (onSource next)) (recordCall (onSink emit)) (k + 1) ((t, r), log) =
      some (if errorsIs e GoError.EOF then none else some e,
        ((t1, r), log ++ [Event.pull x (some e)])) := by
  rw [Iterate]
  simp only [recordPull, onSource, he]
  cases h : errorsIs e GoError.EOF <;> simp

theorem Iterate_fail {σ ρ : Type} (next : σ → (T × Option GoError) × σ)
    (emit : T → ρ → Option GoError × ρ) (t t1 : σ) (r r2 : ρ) (v : T) (e : GoError)
    (log : List (Event T)) (k : Nat) (hv : next t = ((v, none), t1))
    (he : emit v r = (some e, r2)) :
    Iterate (recordPull (onSource next)) (recordCall (onSink emit)) (k + 1) ((t, r), log) =
      some (some e, ((t1, r2), log ++ [Event.pull v none, Event.call v])) := by
  rw [Iterate]
  simp [recordPull, onSource, recordCall, onSink, hv, he]

theorem Accepts_fed {ρ : Type} (emit : T → ρ → Option GoError × ρ)
    (hemit : ∀ x r, (emit x r).1 = none) (vs : List T) :
    ∀ r : ρ, Accepts emit r vs (fed emit vs r) := by
  induction vs with
  | nil => intro r; simp [Accepts, fed]
  | cons v vs ih =>
    intro r
    refine ⟨(emit v r).2, ?_, ?_⟩
    · rw [← hemit v r]
    · simpa [fed] using ih (emit v r).2

theorem ReduceLoop_folds (next : W → (T × Option GoError) × W)
    (f : T → U → W → (U × Option GoError) × W) (n : Nat) :
    ∀ (a b : U × W) (k : Nat), Folds next f n a b →
      ReduceLoop next f (n + k) a.1 a.2 = ReduceLoop next f k b.1 b.2 := by
  induction n with
  | zero =>
    intro a b k h
    simp only [Folds] at h
    subst h
    simp
  | succ n ih =>
    intro a b k h
    obtain ⟨x, w1, y1, w2, h1, h2, h3⟩ := h
    have hlen : n + 1 + k = (n + k) + 1 := by omega
    rw [hlen, ReduceLoop, h1]
    simp only [h2]
    exact ih (y1, w2) b k h3

theorem ReduceLoop_stop (next : W → (T × Option GoError) × W)
    (f : T → U → W → (U × Option GoError) × W) (w w1 : W) (x : T) (e : GoError) (y : U)
    (k : Nat) (he : next w = ((x, some e), w1)) :
    ReduceLoop next f (k + 1) y w =
      some ((y, if errorsIs e GoError.EOF then none else some e), w1) := by
  rw [ReduceLoop, he]
  cases h : errorsIs e GoError.EOF <;> simp [h]

theorem ReduceLoop_fail (next : W → (T × Option GoError) × W)
    (f : T → U → W → (U × Option GoError) × W) (w w1 w2 : W) (x : T) (e : GoError)
    (y y1 : U) (k : Nat) (hx : next w = ((x, none), w1))
    (he : f x y w1 = ((y1, some e), w2)) :
    ReduceLoop next f (k + 1) y w = some ((y1, some e), w2) := by
  rw [ReduceLoop, hx]
  simp only [he]

theorem Folds_pureFold (next : W → (T × Option GoError) × W) (f : T → U → U × Option GoError)
    (hf : ∀ x y, (f x y).2 = none) (vs : List T) :
    ∀ (s t : W) (y : U), Yields next s vs t →
      Folds next (pureFold f) vs.length (y, s) (vs.foldl (fun acc v => (f v acc).1) y, t) := by
  induction vs with
  | nil =>
    intro s t y h
    simp only [Yields] at h
    subst h
    simp [Folds]
  | cons v vs ih =>
    intro s t y h
    obtain ⟨s1, h1, h2⟩ := h
    refine ⟨v, s1, (f v y).1, s1, h1, ?_, ?_⟩
    · simp only [pureFold]
      rw [← hf v y]
    · simpa using ih s1 t (f v y).1 h2

theorem ReduceLoop_Transform [Inhabited U] {V : Type} (next : W → (T × Option GoError) × W)
    (f : T → W → (U × Option GoError) × W) (hf : ∀ x w, (f x w).1.2 = none)
    (g : U → V → W → (V × Option GoError) × W) (fuel : Nat) :
    ∀ (y : V) (w : W),
      ReduceLoop (Transform next f) g fuel y w =
        ReduceLoop next (fun x acc w1 => g (f x w1).1.1 acc (f x w1).2) fuel y w := by
  induction fuel with
  | zero => intro y w; simp [ReduceLoop]
  | succ fuel ih =>
    intro y w
    rw [ReduceLoop, ReduceLoop]
    simp only [Transform]
    rcases hn : next w with ⟨⟨x, _ | e⟩, w1⟩
    · simp only
      have hfx := hf x w1
      rcases hfe : f x w1 with ⟨⟨u, ferr⟩, w2⟩
      rw [hfe] at hfx
      simp only at hfx
      subst hfx
      simp only
      rcases hg : g u y w2 with ⟨⟨y1, _ | ge⟩, w3⟩
      · simp only
        exact ih y1 w3
      · simp only
    · simp only

theorem Transform_recorded [Inhabited U] (next : W → (T × Option GoError) × W)
    (f : T → W → (U × Option GoError) × W) (w : W) (log : List (Event T)) :
    Transform (recordPull next) (recordCall f) (w, log) =
      match next w with
      | ((x, some err), w1) => ((default, some err), (w1, log ++ [Event.pull x (some err)]))
      | ((x, none), w1) =>
        ((f x w1).1, ((f x w1).2, log ++ [Event.pull x none, Event.call x])) := by
  simp only [Transform, recordPull, recordCall]
  rcases hn : next w with ⟨⟨x, _ | e⟩, w1⟩ <;> simp

theorem Transform_recorded_pulls [Inhabited U] (next : W → (T × Option GoError) × W)
    (f : T → W → (U × Option GoError) × W) (k : Nat) :
    ∀ (w : W) (log : List (Event T)),
      pulls (afterCalls (Transform (recordPull next) (recordCall f)) k (w, log)).2 =
        pulls log + k := by
  induction k with
  | zero => intro w log; simp [afterCalls]
  | succ k ih =>
    intro w log
    rw [afterCalls, Transform_recorded]
    rcases hn : next w with ⟨⟨x, _ | e⟩, w1⟩
    · simp only
      rw [ih]
      simp [pulls_append, pulls]
      omega
    · simp only
      rw [ih]
      simp [pulls_append, pulls]
      omega

theorem SliceElems_afterCalls [Inhabited T] (S : List T) (n : Nat) :
    ∀ i : Nat, i ≤ S.length →
      afterCalls (SliceElems S).call n i = min (i + n) S.length := by
  induction n with
  | zero => intro i hi; simp [afterCalls, hi]
  | succ n ih =>
    intro i hi
    rw [afterCalls]
    by_cases h : i < S.length
    · rw [SliceElems_call_lt S i h]
      simp only
      rw [ih (i + 1) h]
      congr 1
      omega
    · have hge : S.length ≤ i := by omega
      rw [SliceElems_call_ge S i hge]
      simp only
      rw [ih i hi]
      omega

theorem SliceElems_yields_mid [Inhabited T] (b : List T) :
    ∀ a c : List T,
      Yields (SliceElems (a ++ b ++ c)).call a.length b (a ++ b).length := by
  induction b with
  | nil => intro a c; simp [Yields]
  | cons v b ih =>
    intro a c
    refine ⟨a.length + 1, ?_, ?_⟩
    · rw [SliceElems_call_lt (a ++ v :: b ++ c) a.length (by simp)]
      simp [List.getElem_append_right, List.getElem_append_left]
    · have h := ih (a ++ [v]) c
      simpa using h

theorem Transform_exhausted [Inhabited U] (next : W → (T × Option GoError) × W)
    (f : T → W → (U × Option GoError) × W) (w : W) (h : isExhausted (next w).1 = true) :
    Transform next f w = ((default, (next w).1.2), (next w).2) ∧
      isExhausted (Transform next f w).1 = true := by
  simp only [Transform]
  rcases hn : next w with ⟨⟨x, _ | e⟩, w1⟩
  · rw [hn] at h
    simp [isExhausted] at h
  · rw [hn] at h
    simp only [isExhausted] at h
    simp [isExhausted, h]

theorem Transform_tail [Inhabited U] (next : W → (T × Option GoError) × W)
    (f : T → W → (U × Option GoError) × W) (n : Nat) :
    ∀ w : W, (∀ m, isExhausted (next (afterCalls next m w)).1 = true) →
      afterCalls (Transform next f) n w = afterCalls next n w := by
  induction n with
  | zero => intro w _; rfl
  | succ n ih =>
    intro w h
    have h0 : isExhausted (next w).1 = true := h 0
    rw [afterCalls, afterCalls, (Transform_exhausted next f w h0).1]
    exact ih (next w).2 (fun m => h (m + 1))

theorem SliceElems_idempotentTail [Inhabited T] (S : List T) :
    IdempotentTail (SliceElems S).call := by
  intro i h n
  have hge : S.length ≤ i := by
    by_contra hlt
    rw [SliceElems_call_lt S i (by omega)] at h
    simp [isExhausted] at h
  have hstay : ∀ m, afterCalls (SliceElems S).call m i = i := by
    intro m
    induction m with
    | zero => rfl
    | succ m ihm => rw [afterCalls, SliceElems_call_ge S i hge]; exact ihm
  rw [SliceElems_call_ge S i hge]
  simp only
  rw [hstay n, SliceElems_call_ge S i hge]
  simp [isExhausted, errorsIs]

theorem Yields_Transform {σ ρ : Type} [Inhabited U] (next : σ → (T × Option GoError) × σ)
    (f : T → ρ → (U × Option GoError) × ρ) (xs : List T) :
    ∀ (s t : σ) (r r1 : ρ) (us : List U), Yields next s xs t → Maps f r xs us r1 →
      Yields (Transform (onSource next) (onSink f)) (s, r) us (t, r1) := by
  induction xs with
  | nil =>
    intro s t r r1 us hy hm
    simp only [Yields] at hy
    obtain ⟨hus, hr⟩ := hm
    subst hy; subst hus; subst hr
    simp [Yields]
  | cons x xs ih =>
    intro s t r r1 us hy hm
    obtain ⟨s1, h1, h2⟩ := hy
    obtain ⟨u, r2, us1, g1, g2, g3⟩ := hm
    subst g2
    refine ⟨(s1, r2), ?_, ih s1 t r2 r1 us1 h2 g3⟩
    simp [Transform, onSource, onSink, h1, g1]

theorem selectSend_blocked (sched : Scheduler W) (ctx : Context W) (c : SendChan W T) (x : T)
    (j : Nat) :
    ∀ (w t : W) (p : Nat), StaysBlocked sched ctx c j w t →
      selectSend sched ctx c x (j + p) w = selectSend sched ctx c x p t := by
  induction j with
  | zero =>
    intro w t p h
    simp only [StaysBlocked] at h
    subst h
    simp
  | succ j ih =>
    intro w t p h
    obtain ⟨h1, h2, h3⟩ := h
    have hlen : j + 1 + p = (j + p) + 1 := by omega
    rw [hlen, selectSend, h1]
    simp only [h2]
    exact ih (sched.idle w) t p h3

theorem selectSend_sent (sched : Scheduler W) (ctx : Context W) (c : SendChan W T) (x : T)
    (j k : Nat) (w1 w2 w3 : W) (hwait : StaysBlocked sched ctx c j w1 w2)
    (herr : ctx.err w2 = none) (hready : c.ready w2 = true) (hsend : c.send x w2 = some w3) :
    selectSend sched ctx c x (j + (k + 1)) w1 = some (Selected.sent, w3) := by
  rw [selectSend_blocked sched ctx c x j w1 w2 (k + 1) hwait, selectSend, herr]
  simp [hready, hsend]

theorem selectSend_done (sched : Scheduler W) (ctx : Context W) (c : SendChan W T) (x : T)
    (j k : Nat) (w1 w2 : W) (err : GoError) (hwait : StaysBlocked sched ctx c j w1 w2)
    (herr : ctx.err w2 = some err) (hready : c.ready w2 = false) :
    selectSend sched ctx c x (j + (k + 1)) w1 = some (Selected.done, w2) := by
  rw [selectSend_blocked sched ctx c x j w1 w2 (k + 1) hwait, selectSend, herr]
  simp [hready]

theorem ToChanCtx_stop (sched : Scheduler W) (ctx : Context W) (c : SendChan W T)
    (next : W → (T × Option GoError) × W) (t t1 : W) (x : T) (e : GoError)
    (he : next t = ((x, some e), t1)) :
    ∃ N, ∀ fuel, N ≤ fuel →
      ToChanCtx sched ctx c next fuel t =
        some ((x, if errorsIs e GoError.EOF then none else some e), t1) := by
  refine ⟨1, ?_⟩
  intro fuel hfuel
  obtain ⟨f, rfl⟩ : ∃ f, fuel = f + 1 := ⟨fuel - 1, by omega⟩
  rw [ToChanCtx, he]
  cases h : errorsIs e GoError.EOF <;> simp [h]

theorem ToChanCtx_cancel (sched : Scheduler W) (ctx : Context W) (c : SendChan W T)
    (next : W → (T × Option GoError) × W) (t t1 t2 : W) (v : T) (err : GoError) (j : Nat)
    (hv : next t = ((v, none), t1)) (hwait : StaysBlocked sched ctx c j t1 t2)
    (herr : ctx.err t2 = some err) (hready : c.ready t2 = false) :
    ∃ N, ∀ fuel, N ≤ fuel →
      ToChanCtx sched ctx c next fuel t = some ((v, some err), t2) := by
  refine ⟨j + 1, ?_⟩
  intro fuel hfuel
  obtain ⟨f, rfl⟩ : ∃ f, fuel = f + 1 := ⟨fuel - 1, by omega⟩
  have hsel : selectSend sched ctx c v (f + 1) t1 = some (Selected.done, t2) := by
    have hf : f + 1 = j + ((f - j) + 1) := by omega
    rw [hf]
    exact selectSend_done sched ctx c v j (f - j) t1 t2 err hwait herr hready
  rw [ToChanCtx, hv]
  simp only [hsel, herr]

theorem ToChanCtx_pumps (sched : Scheduler W) (ctx : Context W) (c : SendChan W T)
    (next : W → (T × Option GoError) × W) (vs : List T) :
    ∀ (w t : W) (r : (T × Option GoError) × W), Pumps sched ctx c next w vs t →
      (∃ N, ∀ fuel, N ≤ fuel → ToChanCtx sched ctx c next fuel t = some r) →
      ∃ N, ∀ fuel, N ≤ fuel → ToChanCtx sched ctx c next fuel w = some r := by
  induction vs with
  | nil =>
    intro w t r hp hres
    simp only [Pumps] at hp
    subst hp
    exact hres
  | cons v vs ih =>
    intro w t r hp hres
    obtain ⟨w1, j, w2, w3, hnext, hwait, herr, hready, hsend, htail⟩ := hp
    obtain ⟨N1, hN1⟩ := ih w3 t r htail hres
    refine ⟨max N1 j + 1, ?_⟩
    intro fuel hfuel
    obtain ⟨f, rfl⟩ : ∃ f, fuel = f + 1 := ⟨fuel - 1, by omega⟩
    have hsel : selectSend sched ctx c v (f + 1) w1 = some (Selected.sent, w3) := by
      have hf : f + 1 = j + ((f - j) + 1) := by omega
      rw [hf]
      exact selectSend_sent sched ctx c v j (f - j) w1 w2 w3 hwait herr hready hsend
    rw [ToChanCtx, hnext]
    simp only [hsel]
    exact hN1 f (by omega)

theorem StaysBlocked_onSink {σ ρ : Type} (sched : Scheduler ρ) (ctx : Context ρ)
    (c : SendChan ρ T) (s : σ) (j : Nat) :
    ∀ r r1 : ρ, StaysBlocked sched ctx c j r r1 →
      StaysBlocked (onSinkSched sched) (onSinkCtx ctx) (onSinkChan c) j (s, r) (s, r1) := by
  induction j with
  | zero =>
    intro r r1 h
    simp only [StaysBlocked] at h
    subst h
    simp [StaysBlocked]
  | succ j ih =>
    intro r r1 h
    obtain ⟨h1, h2, h3⟩ := h
    exact ⟨h1, h2, ih (sched.idle r) r1 h3⟩

theorem Pumps_of_Yields_Delivers {σ ρ : Type} (sched : Scheduler ρ) (ctx : Context ρ)
    (c : SendChan ρ T) (next : σ → (T × Option GoError) × σ) (vs : List T) :
    ∀ (s t : σ) (r r1 : ρ), Yields next s vs t → Delivers sched ctx c r vs r1 →
      Pumps (onSinkSched sched) (onSinkCtx ctx) (onSinkChan c) (onSource next)
        (s, r) vs (t, r1) := by
  induction vs with
  | nil =>
    intro s t r r1 hy hd
    simp only [Yields] at hy
    simp only [Delivers] at hd
    subst hy
    subst hd
    simp [Pumps]
  | cons v vs ih =>
    intro s t r r1 hy hd
    obtain ⟨s1, h1, h2⟩ := hy
    obtain ⟨j, r2, r3, g1, g2, g3, g4, g5⟩ := hd
    refine ⟨(s1, r), j, (s1, r2), (s1, r3), ?_, StaysBlocked_onSink sched ctx c s1 j r r2 g1,
      g2, g3, ?_, ih s1 t r3 r1 h2 g5⟩
    · simp [onSource, h1]
    · simp [onSinkChan, g4]

theorem Wire_delivers (vs : List T) :
    ∀ w : Wire T, w.chan.closed = false → w.ctxErr = none → w.demand = 0 →
      w.chan.queue.length + vs.length ≤ w.chan.depth →
      Delivers wireSched wireCtx wireChan w vs
        { w with chan := { w.chan with queue := w.chan.queue ++ vs } } := by
  induction vs with
  | nil =>
    intro w _ _ _ _
    simp [Delivers]
  | cons v vs ih =>
    intro w hopen hctx hdem hroom
    have hroom1 : w.chan.queue.length < w.chan.depth := by
      simp only [List.length_cons] at hroom
      omega
    refine ⟨0, w, { w with chan := { w.chan with queue := w.chan.queue ++ [v] } }, rfl, hctx,
      ?_, ?_, ?_⟩
    · simp [wireChan, hopen, hdem, hroom1]
    · simp [wireChan, hopen, hdem]
    · have h := ih { w with chan := { w.chan with queue := w.chan.queue ++ [v] } } hopen hctx hdem
        (by simp only [List.length_append, List.length_cons, List.length_nil] at hroom ⊢; omega)
      simpa using h

theorem ToChanCtx_drains {σ ρ : Type} (sched : Scheduler ρ) (ctx : Context ρ)
    (c : SendChan ρ T) (next : σ → (T × Option GoError) × σ) (s0 s1 s2 : σ) (r0 r1 : ρ)
    (vs : List T) (x : T) (e : GoError)
    (hvs : Yields next s0 vs s1) (hstop : next s1 = ((x, some e), s2))
    (he : errorsIs e GoError.EOF = true) (hc : Delivers sched ctx c r0 vs r1) :
    ∃ N, ∀ fuel, N ≤ fuel →
      ToChanCtx (onSinkSched sched) (onSinkCtx ctx) (onSinkChan c) (onSource next) fuel
        (s0, r0) = some ((x, none), (s2, r1)) := by
  apply ToChanCtx_pumps _ _ _ _ vs (s0, r0) (s1, r1) _
    (Pumps_of_Yields_Delivers sched ctx c next vs s0 s1 r0 r1 hvs hc)
  have hlast : onSource next (s1, r1) = ((x, some e), (s2, r1)) := by
    simp [onSource, hstop]
  obtain ⟨N, hN⟩ := ToChanCtx_stop (onSinkSched sched) (onSinkCtx ctx) (onSinkChan c)
    (onSource next) (s1, r1) (s2, r1) x e hlast
  refine ⟨N, fun fuel hfuel => ?_⟩
  rw [hN fuel hfuel]
  simp [he]

theorem MapKeys_yields {K V : Type} [Inhabited K] (m : List (K × V)) :
    ∀ l : List (K × V),
      Yields (MapKeys m).call (mapIterNext l) (l.map Prod.fst) none := by
  intro l
  induction l with
  | nil => simp [Yields, mapIterNext]
  | cons entry rest ih => exact ⟨mapIterNext rest, rfl, ih⟩

theorem MapKeys_tail {K V : Type} [Inhabited K] (m : List (K × V)) (n : Nat) :
    (MapKeys m).call (afterCalls (MapKeys m).call n none) =
      ((default, some GoError.EOF), none) := by
  have h : afterCalls (MapKeys m).call n none = none := by
    induction n with
    | zero => rfl
    | succ n ih => rw [afterCalls]; exact ih
  rw [h]
  rfl

theorem Map_yields {K V : Type} [Inhabited K] [Inhabited V] (m : List (K × V)) :
    ∀ l : List (K × V), Yields (Map m).call (mapIterNext l) l none := by
  intro l
  induction l with
  | nil => simp [Yields, mapIterNext]
  | cons entry rest ih => exact ⟨mapIterNext rest, rfl, ih⟩

theorem Map_tail {K V : Type} [Inhabited K] [Inhabited V] (m : List (K × V)) (n : Nat) :
    (Map m).call (afterCalls (Map m).call n none) =
      (((default, default), some GoError.EOF), none) := by
  have h : afterCalls (Map m).call n none = none := by
    induction n with
    | zero => rfl
    | succ n ih => rw [afterCalls]; exact ih
  rw [h]
  rfl

theorem mapIndex_of_mem {K V : Type} (eq : K → K → Bool) (M : List (K × V)) :
    M.Pairwise (fun a b => eq a.1 b.1 = false) →
      ∀ kv ∈ M, eq kv.1 kv.1 = true → mapIndex eq M kv.1 = some kv.2 := by
  induction M with
  | nil => intro _ kv h; simp at h
  | cons entry rest ih =>
    intro hp kv hmem hrefl
    rw [List.pairwise_cons] at hp
    obtain ⟨hfirst, hrest⟩ := hp
    rcases List.mem_cons.mp hmem with h | h
    · subst h
      simp [mapIndex, hrefl]
    · have hne : eq entry.1 kv.1 = false := hfirst kv h
      simp only [mapIndex, hne]
      exact ih hrest kv h hrefl

theorem ChanClosed_cons [Inhabited T] (v : T) (rest : List T) (d : Nat) :
    ChanClosed ⟨⟨v :: rest, d, true⟩, rfl⟩ = ((v, none), ⟨⟨rest, d, true⟩, rfl⟩) := rfl

theorem ChanClosed_nil [Inhabited T] (d : Nat) :
    ChanClosed ⟨⟨([] : List T), d, true⟩, rfl⟩ =
      ((default, some GoError.EOF), ⟨⟨[], d, true⟩, rfl⟩) := rfl

theorem ChanClosed_yields [Inhabited T] (d : Nat) (q : List T) :
    Yields ChanClosed ⟨⟨q, d, true⟩, rfl⟩ q ⟨⟨[], d, true⟩, rfl⟩ := by
  induction q with
  | nil => simp [Yields]
  | cons v rest ih => exact ⟨⟨⟨rest, d, true⟩, rfl⟩, ChanClosed_cons v rest d, ih⟩

theorem ChanClosed_tail [Inhabited T] (d : Nat) (n : Nat) :
    ChanClosed (afterCalls ChanClosed n ⟨⟨([] : List T), d, true⟩, rfl⟩) =
      ((default, some GoError.EOF), ⟨⟨[], d, true⟩, rfl⟩) := by
  have h : afterCalls ChanClosed n ⟨⟨([] : List T), d, true⟩, rfl⟩ = ⟨⟨[], d, true⟩, rfl⟩ := by
    induction n with
    | zero => rfl
    | succ n ih => rw [afterCalls, ChanClosed_nil]; exact ih
  rw [h, ChanClosed_nil]

end loops

/-! ## The claims -/

section claims

variable {W σ ρ T U V : Type}

/-- C1: for every slice `S`, the empty one included, `ToSlice(SliceElems(S))`
returns, once the bound allows the `len(S)+1` pulls it makes, the slice `S` itself
(same length, same elements, same order) and a nil error; the cursor is then
`len(S)`. -/
theorem ToSlice_SliceElems_roundtrip [Inhabited T] (S : List T) (extra : Nat) :
    ToSlice (SliceElems S).call (S.length + 1 + extra) (SliceElems S).captured =
      some ((S, none), S.length) := by
  unfold ToSlice
  rw [Nat.add_assoc, ToSliceLoop_yields (SliceElems S).call S _ S.length [] (1 + extra)
    (SliceElems_yields S), Nat.add_comm 1 extra,
    ToSliceLoop_stop (SliceElems S).call S.length S.length default GoError.EOF _ extra
      (SliceElems_call_ge S S.length (le_refl _))]
  simp [errorsIs]

/-- C2: for every producer `next` on a state `W`, every `f` that never returns
an error (it may have side effects on `W`), every `init` and every fold function
`g`, and every bound on the number of iterations: `Reduce(Transform(next, f),
init, g)` and `Reduce(next, init, (x, acc) -> g(f(x), acc))`, started in the same
state, return the same accumulator and the same error and leave the same state
(or both have not returned within the bound); with a producer that counts its
calls in a log, both runs make the same number of pulls. -/
theorem Reduce_Transform_fusion [Inhabited U] (next : W → (T × Option GoError) × W)
    (f : T → W → (U × Option GoError) × W) (hf : ∀ x w, (f x w).1.2 = none)
    (init : V) (g : U → V → W → (V × Option GoError) × W) (fuel : Nat) (w : W)
    (log : List (Event T)) :
    Reduce (Transform next f) init g fuel w =
        Reduce next init (fun x acc w1 => g (f x w1).1.1 acc (f x w1).2) fuel w ∧
      Option.map (fun r => pulls r.2.2)
          (Reduce (Transform (recordPull next) (fun x => unrecorded (f x))) init
            (fun u acc => unrecorded (g u acc)) fuel (w, log)) =
        Option.map (fun r => pulls r.2.2)
          (Reduce (recordPull next) init
            (fun x acc => unrecorded (fun w1 => g (f x w1).1.1 acc (f x w1).2)) fuel (w, log)) := by
  refine ⟨ReduceLoop_Transform next f hf g fuel init w, ?_⟩
  have h := ReduceLoop_Transform (recordPull next) (fun x => unrecorded (f x))
    (fun x wl => hf x wl.1) (fun u acc => unrecorded (g u acc)) fuel init (w, log)
  unfold Reduce
  rw [h]
  rfl

/-- C2 at a concrete input: doubling the elements of `[1, 2, 3]` and summing
gives `(12, nil)` on both sides after four pulls. -/
theorem Reduce_Transform_fusion_witness :
    (∀ x w : Nat, (twice x w).1.2 = none) ∧
    (Reduce (Transform (SliceElems [1, 2, 3]).call twice) 0 (pureFold plus) 4 0 =
        Reduce (SliceElems [1, 2, 3]).call 0
          (fun x acc w1 => pureFold plus (twice x w1).1.1 acc (twice x w1).2) 4 0 ∧
      Option.map (fun r => pulls r.2.2)
          (Reduce (Transform (recordPull (SliceElems [1, 2, 3]).call)
            (fun x => unrecorded (twice x))) 0
            (fun u acc => unrecorded (pureFold plus u acc)) 4 (0, [])) =
        Option.map (fun r => pulls r.2.2)
          (Reduce (recordPull (SliceElems [1, 2, 3]).call) 0
            (fun x acc => unrecorded
              (fun w1 => pureFold plus (twice x w1).1.1 acc (twice x w1).2)) 4 (0, []))) ∧
    Reduce (Transform (SliceElems [1, 2, 3]).call twice) 0 (pureFold plus) 4 0 =
      some ((12, none), 3) ∧
    Option.map (fun r => pulls r.2.2)
        (Reduce (Transform (recordPull (SliceElems [1, 2, 3]).call)
          (fun x => unrecorded (twice x))) 0
          (fun u acc => unrecorded (pureFold plus u acc)) 4 (0, [])) = some 4 :=
  ⟨fun _ _ => rfl,
    Reduce_Transform_fusion (SliceElems [1, 2, 3]).call twice (fun _ _ => rfl) 0
      (pureFold plus) 4 0 [],
    by decide, by decide⟩

/-- C3, as stated, fails: on `SliceElems([1])` with accumulator 0 the fold
function `failingFold` is called with `(1, 0)` and returns `(42, err)`; `Reduce`
returns `(42, err)`, the value that came with the error, and not `(0, err)`, the
accumulator passed into the failing call. -/
theorem Reduce_previous_accumulator_refuted :
    (SliceElems [1]).call 0 = (((1 : Nat), none), 1) ∧
    pureFold failingFold 1 0 1 = ((42, some (GoError.errorString 7)), 1) ∧
    Reduce (SliceElems [1]).call 0 (pureFold failingFold) 1 (SliceElems [1]).captured =
      some ((42, some (GoError.errorString 7)), 1) ∧
    Reduce (SliceElems [1]).call 0 (pureFold failingFold) 1 (SliceElems [1]).captured ≠
      some ((0, some (GoError.errorString 7)), 1) := by
  decide

/-- C3, amended: for every producer, initial accumulator and fold function `f`
(on a shared state `W`): if, after `n` iterations without an error, `f` is called
on the pulled value `x` with the accumulator `y` and returns `(y1, e)` with `e`
non-nil, then `Reduce` stops there and returns the error `e` together with `y1`,
the value `f` returned alongside the error. -/
theorem Reduce_returns_failing_result (next : W → (T × Option GoError) × W)
    (f : T → U → W → (U × Option GoError) × W) (init y y1 : U) (w wn w1 w2 : W) (n : Nat)
    (x : T) (e : GoError) (extra : Nat)
    (hrun : Folds next f n (init, w) (y, wn))
    (hx : next wn = ((x, none), w1))
    (he : f x y w1 = ((y1, some e), w2)) :
    Reduce next init f (n + 1 + extra) w = some ((y1, some e), w2) := by
  unfold Reduce
  rw [Nat.add_assoc, ReduceLoop_folds next f n (init, w) (y, wn) (1 + extra) hrun,
    Nat.add_comm 1 extra]
  exact ReduceLoop_fail next f wn w1 w2 x e y y1 extra hx he

/-- C3, amended, at a concrete input: over the producer `flaky` a fold function
that succeeds on 10 and fails on 11, returning 1000 next to the error, makes
`Reduce` return `(1000, err)`; the accumulator passed into the failing call
was 10. -/
theorem Reduce_returns_failing_result_witness :
    Folds flaky (pureFold failOnEleven) 1
      (0, 0) (10, 1) ∧
    flaky 1 = ((11, none), 2) ∧
    Reduce flaky 0 (pureFold failOnEleven) (1 + 1 + 0) 0 =
      some ((1000, some (GoError.errorString 5)), 2) :=
  ⟨⟨10, 1, 10, 1, by decide, by decide, rfl⟩, by decide,
    Reduce_returns_failing_result flaky (pureFold failOnEleven) 0 10 1000 0 1 2 2 1 11 (GoError.errorString 5) 0
      ⟨10, 1, 10, 1, by decide, by decide, rfl⟩ (by decide) (by decide)⟩

/-- C4: for every producer that yields the values `vs` and then `v` (so at least
`k = len(vs) + 1` values) and every consumer `emit` that returns nil on `vs` and
a non-nil error `e` on `v`, the `k`-th value: `Iterate` returns exactly `e`; the
recorded calls are pull, emit, ..., pull, emit over `vs` and `v`, so the producer
was called exactly `k` times and `emit` exactly `k` times, and the producer is
left in the state right after its `k`-th call. -/
theorem Iterate_consumer_error (next : σ → (T × Option GoError) × σ)
    (emit : T → ρ → Option GoError × ρ) (s0 sm s1 : σ) (r0 rm r2 : ρ) (vs : List T) (v : T)
    (e : GoError) (extra : Nat)
    (hvs : Yields next s0 vs sm) (hv : next sm = ((v, none), s1))
    (hok : Accepts emit r0 vs rm) (he : emit v rm = (some e, r2)) :
    Iterate (recordPull (onSource next)) (recordCall (onSink emit)) (vs.length + 1 + extra)
        ((s0, r0), []) =
      some (some e, ((s1, r2), alternating (vs ++ [v]))) ∧
    pulls (alternating (vs ++ [v])) = vs.length + 1 ∧
    calls (alternating (vs ++ [v])) = vs ++ [v] := by
  refine ⟨?_, ?_, calls_alternating _⟩
  · rw [Nat.add_assoc, Iterate_steps next emit vs s0 sm r0 rm [] (1 + extra) hvs hok,
      Nat.add_comm 1 extra, Iterate_fail next emit sm s1 rm r2 v e _ extra hv he]
    simp [alternating_append, alternating]
  · simp [pulls_alternating]

/-- C4 at the input of the claim: a source of the five values 1..5 whose calls
are recorded, with a consumer failing on the 3rd, is pulled exactly 3 times; the
cursor stays at 3 and the consumer's error is returned. -/
theorem Iterate_consumer_error_witness :
    Iterate (recordPull (onSource (SliceElems [1, 2, 3, 4, 5]).call))
        (recordCall (onSink failOnThird)) ([1, 2].length + 1 + 0)
        (((SliceElems [1, 2, 3, 4, 5]).captured, 0), []) =
      some (some (GoError.errorString 3), ((3, 3), alternating ([1, 2] ++ [3]))) ∧
    pulls (alternating ([1, 2] ++ [3])) = [1, 2].length + 1 ∧
    calls (alternating ([1, 2] ++ [3])) = [1, 2] ++ [3] :=
  Iterate_consumer_error (SliceElems [1, 2, 3, 4, 5]).call failOnThird 0 2 3 0 2 3 [1, 2] 3
    (GoError.errorString 3) 0 ⟨1, by decide, 2, by decide, rfl⟩ (by decide)
    ⟨1, by decide, 2, by decide, rfl⟩ (by decide)

/-- C5: for every producer that yields `vs` with nil errors and then returns
`(x, e)` with `e` non-nil and not `io.EOF` (`errors.Is(e, io.EOF)` is false), and
every consumer that succeeds on `vs`: `Iterate` returns exactly `e`; the recorded
calls are pull, emit over `vs` followed by the failing pull alone, so the
consumer was called exactly on `vs`, in order, and not on `x`, and the failing
pull is the last call of the producer. -/
theorem Iterate_producer_error (next : σ → (T × Option GoError) × σ)
    (emit : T → ρ → Option GoError × ρ) (s0 s1 s2 : σ) (r0 r1 : ρ) (vs : List T) (x : T)
    (e : GoError) (extra : Nat)
    (hvs : Yields next s0 vs s1) (hstop : next s1 = ((x, some e), s2))
    (hne : errorsIs e GoError.EOF = false) (hok : Accepts emit r0 vs r1) :
    Iterate (recordPull (onSource next)) (recordCall (onSink emit)) (vs.length + 1 + extra)
        ((s0, r0), []) =
      some (some e, ((s2, r1), alternating vs ++ [Event.pull x (some e)])) ∧
    pulls (alternating vs ++ [Event.pull x (some e)]) = vs.length + 1 ∧
    calls (alternating vs ++ [Event.pull x (some e)]) = vs := by
  refine ⟨?_, ?_, ?_⟩
  · rw [Nat.add_assoc, Iterate_steps next emit vs s0 s1 r0 r1 [] (1 + extra) hvs hok,
      Nat.add_comm 1 extra, Iterate_stop next emit s1 s2 r1 x e _ extra hstop]
    simp [hne]
  · simp [pulls_append, pulls_alternating, pulls]
  · simp [calls_append, calls_alternating, calls]

/-- C5 at a concrete input: `flaky` yields 10 and 11 and then fails; the summing
consumer is called on 10 and 11 only and ends with total 21. -/
theorem Iterate_producer_error_witness :
    Iterate (recordPull (onSource flaky)) (recordCall (onSink summing)) ([10, 11].length + 1 + 0)
        ((0, 0), []) =
      some (some (GoError.errorString 1),
        ((3, 21), alternating [10, 11] ++ [Event.pull 99 (some (GoError.errorString 1))])) ∧
    pulls (alternating [10, 11] ++ [Event.pull 99 (some (GoError.errorString 1))]) =
      [10, 11].length + 1 ∧
    calls (alternating [10, 11] ++ [Event.pull 99 (some (GoError.errorString 1))]) = [10, 11] :=
  Iterate_producer_error flaky summing 0 2 3 0 21 [10, 11] 99 (GoError.errorString 1) 0
    ⟨1, by decide, 2, by decide, rfl⟩ (by decide) (by decide)
    ⟨10, by decide, 21, by decide, rfl⟩

/-- C6: for every slice `S` and every consumer `emit` that never fails,
`Iterate(SliceElems(S), emit)` returns nil and the recorded calls are exactly
pull, emit(S[0]), pull, emit(S[1]), ..., pull, emit(S[n-1]) and a last pull that
returns the zero value and `io.EOF`: `emit` is called once per element in index
order, each value is consumed before the next pull, the cursor ends at `len(S)`
and the consumer in the state reached by feeding it `S`. -/
theorem Iterate_SliceElems_trace [Inhabited T] (S : List T)
    (emit : T → ρ → Option GoError × ρ) (hemit : ∀ x r, (emit x r).1 = none) (r0 : ρ)
    (extra : Nat) :
    Iterate (recordPull (onSource (SliceElems S).call)) (recordCall (onSink emit))
        (S.length + 1 + extra) (((SliceElems S).captured, r0), []) =
      some (none, ((S.length, fed emit S r0),
        alternating S ++ [Event.pull default (some GoError.EOF)])) ∧
    calls (alternating S ++ [Event.pull default (some GoError.EOF)]) = S ∧
    pulls (alternating S ++ [Event.pull default (some GoError.EOF)]) = S.length + 1 := by
  refine ⟨?_, ?_, ?_⟩
  · rw [Nat.add_assoc, Iterate_steps (SliceElems S).call emit S _ S.length r0 (fed emit S r0) []
        (1 + extra) (SliceElems_yields S) (Accepts_fed emit hemit S r0),
      Nat.add_comm 1 extra,
      Iterate_stop (SliceElems S).call emit S.length S.length _ default GoError.EOF _ extra
        (SliceElems_call_ge S S.length (le_refl _))]
    simp [errorsIs]
  · simp [calls_append, calls_alternating, calls]
  · simp [pulls_append, pulls_alternating, pulls]

/-- C6 at the input of the claim: `S = [1, 2, 3]` with a summing consumer gives
total 6 and success. -/
theorem Iterate_SliceElems_trace_witness :
    (∀ x r : Nat, (summing x r).1 = none) ∧
    (Iterate (recordPull (onSource (SliceElems [1, 2, 3]).call)) (recordCall (onSink summing))
        ([1, 2, 3].length + 1 + 0) (((SliceElems [1, 2, 3]).captured, 0), []) =
      some (none, (([1, 2, 3].length, fed summing [1, 2, 3] 0),
        alternating [1, 2, 3] ++ [Event.pull default (some GoError.EOF)])) ∧
    calls (alternating [1, 2, 3] ++ [Event.pull default (some GoError.EOF)]) = [1, 2, 3] ∧
    pulls (alternating [1, 2, 3] ++ [Event.pull default (some GoError.EOF)]) =
      [1, 2, 3].length + 1) ∧
    fed summing [1, 2, 3] 0 = 6 :=
  ⟨fun _ _ => rfl, Iterate_SliceElems_trace [1, 2, 3] summing (fun _ _ => rfl) 0 0, by decide⟩

/-- C7: for every producer that yields `vs` with nil errors and then returns a
non-nil error `e`, every `init` and every fold function `f` that never fails,
`Reduce` returns the left fold of `f` over `vs` in pull order, starting from
`init`, with a nil error when `e` is `io.EOF` (`errors.Is(e, io.EOF)`) and with
exactly `e` otherwise. -/
theorem Reduce_left_fold (next : σ → (T × Option GoError) × σ)
    (f : T → U → U × Option GoError) (hf : ∀ x y, (f x y).2 = none) (init : U)
    (s0 s1 s2 : σ) (vs : List T) (x : T) (e : GoError) (extra : Nat)
    (hvs : Yields next s0 vs s1) (hstop : next s1 = ((x, some e), s2)) :
    Reduce next init (pureFold f) (vs.length + 1 + extra) s0 =
      some ((vs.foldl (fun acc v => (f v acc).1) init,
        if errorsIs e GoError.EOF then none else some e), s2) := by
  unfold Reduce
  rw [Nat.add_assoc,
    ReduceLoop_folds next (pureFold f) vs.length (init, s0) _ (1 + extra)
      (Folds_pureFold next f hf vs s0 s1 init hvs),
    Nat.add_comm 1 extra]
  exact ReduceLoop_stop next (pureFold f) s1 s2 x e _ extra hstop

/-- C7 at the input of the claim: `Reduce(SliceElems([1,2,3]), 0, (x,acc) ->
acc+x)` is `(6, nil)`. -/
theorem Reduce_left_fold_witness :
    (∀ x y : Nat, (plus x y).2 = none) ∧
    Reduce (SliceElems [1, 2, 3]).call 0 (pureFold plus) ([1, 2, 3].length + 1 + 0) 0 =
      some (([1, 2, 3].foldl (fun acc v => (plus v acc).1) 0,
        if errorsIs GoError.EOF GoError.EOF then none else some GoError.EOF), 3) ∧
    [1, 2, 3].foldl (fun acc v => (plus v acc).1) 0 = 6 ∧
    errorsIs GoError.EOF GoError.EOF = true :=
  ⟨fun _ _ => rfl,
    Reduce_left_fold (SliceElems [1, 2, 3]).call plus (fun _ _ => rfl) 0 0 3 3 [1, 2, 3] 0
      GoError.EOF 0 (SliceElems_yields [1, 2, 3]) (by decide),
    by decide, by decide⟩

/-- C8: for every producer that yields `vs` with nil errors and then returns
`(x, e)` with `e` non-nil, `ToSlice` returns the slice `vs` in pull order, without
`x`, with a nil error when `e` is `io.EOF` (`errors.Is(e, io.EOF)`) and with
exactly `e` otherwise: what was collected is kept on failure. -/
theorem ToSlice_keeps_collected (next : σ → (T × Option GoError) × σ) (s0 s1 s2 : σ)
    (vs : List T) (x : T) (e : GoError) (extra : Nat)
    (hvs : Yields next s0 vs s1) (hstop : next s1 = ((x, some e), s2)) :
    ToSlice next (vs.length + 1 + extra) s0 =
      some ((vs, if errorsIs e GoError.EOF then none else some e), s2) := by
  unfold ToSlice
  rw [Nat.add_assoc, ToSliceLoop_yields next vs s0 s1 [] (1 + extra) hvs, Nat.add_comm 1 extra,
    ToSliceLoop_stop next s1 s2 x e _ extra hstop]
  simp

/-- C8 at a concrete input: `flaky` yields 10 and 11 and fails with 99 next to
the error; `ToSlice` returns `[10, 11]` and that error. -/
theorem ToSlice_keeps_collected_witness :
    ToSlice flaky ([10, 11].length + 1 + 0) 0 =
      some (([10, 11], if errorsIs (GoError.errorString 1) GoError.EOF then none
        else some (GoError.errorString 1)), 3) ∧
    errorsIs (GoError.errorString 1) GoError.EOF = false :=
  ⟨ToSlice_keeps_collected flaky 0 2 3 [10, 11] 99 (GoError.errorString 1) 0
    ⟨1, by decide, 2, by decide, rfl⟩ (by decide), by decide⟩

/-- C9: for every source producer `next` and function `f` (both may have side
effects on the state `W`), with their calls recorded: a call of the producer
`Transform(next, f)` makes exactly one call of `next`; if that call returned a
non-nil error (`io.EOF` or any other) the result is the zero value of `U` and the
same error, and `f` was not called; otherwise `f` was called once, on the pulled
value, and the result is exactly what `f` returned, its error included.  After
construction and `k` calls the log holds `k` more pulls than before: none for the
construction, one for each call. -/
theorem Transform_call [Inhabited U] (next : W → (T × Option GoError) × W)
    (f : T → W → (U × Option GoError) × W) (w : W) (log : List (Event T)) (k : Nat) :
    Transform (recordPull next) (recordCall f) (w, log) =
      (match next w with
      | ((x, some err), w1) => ((default, some err), (w1, log ++ [Event.pull x (some err)]))
      | ((x, none), w1) =>
        ((f x w1).1, ((f x w1).2, log ++ [Event.pull x none, Event.call x]))) ∧
    pulls (afterCalls (Transform (recordPull next) (recordCall f)) k (w, log)).2 =
      pulls log + k :=
  ⟨Transform_recorded next f w log, Transform_recorded_pulls next f k w log⟩

/-- C10: for every slice `S`, the calls of `SliceElems(S)` numbered `1..len(S)`
return the elements with a nil error, and every call from number `len(S)+1` on
returns the zero value and `io.EOF` and leaves the cursor at `len(S)`; after any
number of calls the cursor is at most `len(S)`. -/
theorem SliceElems_exhausted_stays [Inhabited T] (S : List T) (n : Nat) :
    (∀ h : n < S.length,
      (SliceElems S).call (afterCalls (SliceElems S).call n (SliceElems S).captured) =
        ((S.get ⟨n, h⟩, none), n + 1)) ∧
    (S.length ≤ n →
      (SliceElems S).call (afterCalls (SliceElems S).call n (SliceElems S).captured) =
        ((default, some GoError.EOF), S.length)) ∧
    afterCalls (SliceElems S).call n (SliceElems S).captured ≤ S.length := by
  have h0 : afterCalls (SliceElems S).call n (SliceElems S).captured = min n S.length := by
    have h := SliceElems_afterCalls S n 0 (Nat.zero_le _)
    simpa [SliceElems] using h
  rw [h0]
  refine ⟨?_, ?_, Nat.min_le_right _ _⟩
  · intro h
    have hm : min n S.length = n := Nat.min_eq_left (Nat.le_of_lt h)
    rw [SliceElems_call_lt S (min n S.length) (by omega)]
    simp [hm]
  · intro h
    have hm : min n S.length = S.length := Nat.min_eq_right h
    rw [SliceElems_call_ge S (min n S.length) (by omega), hm]

/-- C10 at a concrete input: on `[7, 8]` the third call returns `io.EOF`, and so
does the sixth, with the cursor still at 2. -/
theorem SliceElems_exhausted_stays_witness :
    (SliceElems [7, 8]).call (afterCalls (SliceElems [7, 8]).call 1 (SliceElems [7, 8]).captured) =
      ((8, none), 2) ∧
    (SliceElems [7, 8]).call (afterCalls (SliceElems [7, 8]).call 2 (SliceElems [7, 8]).captured) =
      (((default : Nat), some GoError.EOF), [7, 8].length) ∧
    (SliceElems [7, 8]).call (afterCalls (SliceElems [7, 8]).call 5 (SliceElems [7, 8]).captured) =
      (((default : Nat), some GoError.EOF), [7, 8].length) :=
  ⟨(SliceElems_exhausted_stays [7, 8] 1).1 (by decide),
    (SliceElems_exhausted_stays [7, 8] 2).2.1 (by decide),
    (SliceElems_exhausted_stays [7, 8] 5).2.1 (by decide)⟩

/-- C11, as stated, fails: `SliceElems([1, 2])` has the idempotent-tail property,
but with an `f` that returns `io.EOF` on the value 1 the first call of
`Transform(SliceElems([1, 2]), f)` returns `io.EOF` and the second call returns
the value 2 with a nil error. -/
theorem Transform_idempotentTail_refuted :
    IdempotentTail (SliceElems [1, 2]).call ∧
    Transform (SliceElems [1, 2]).call eofOnOne (SliceElems [1, 2]).captured =
      ((0, some GoError.EOF), 1) ∧
    Transform (SliceElems [1, 2]).call eofOnOne 1 = ((2, none), 2) ∧
    ¬ IdempotentTail (Transform (SliceElems [1, 2]).call eofOnOne) := by
  refine ⟨SliceElems_idempotentTail [1, 2], by decide, by decide, ?_⟩
  intro h
  have h1 := h 0 (by decide) 0
  exact absurd h1 (by decide)

/-- C11, amended: for every source producer `next` that has the idempotent-tail
property and every function `f` that never returns an error `e` with
`errors.Is(e, io.EOF)`, the producer `Transform(next, f)` has the idempotent-tail
property: once one of its calls has returned exhaustion, every later call
returns exhaustion and never a value. -/
theorem Transform_idempotentTail [Inhabited U] (next : W → (T × Option GoError) × W)
    (f : T → W → (U × Option GoError) × W) (hP : IdempotentTail next)
    (hf : ∀ x w, isExhausted (f x w).1 = false) :
    IdempotentTail (Transform next f) := by
  intro w h n
  have hsrc : isExhausted (next w).1 = true := by
    rcases hn : next w with ⟨⟨x, _ | e⟩, w1⟩
    · simp only [Transform, hn] at h
      rw [hf x w1] at h
      exact absurd h (by decide)
    · simp only [Transform, hn, isExhausted] at h
      simpa [isExhausted] using h
  have htail := hP w hsrc
  rw [(Transform_exhausted next f w hsrc).1]
  simp only
  rw [Transform_tail next f n (next w).2 htail]
  exact (Transform_exhausted next f _ (htail n)).2

/-- C11, amended, at a concrete input: doubling never reports `io.EOF`, so
`Transform(SliceElems([1, 2]), twice)` keeps the idempotent tail; its third and
fifth calls both return the zero value and `io.EOF`. -/
theorem Transform_idempotentTail_witness :
    IdempotentTail (Transform (SliceElems [1, 2]).call twice) ∧
    Transform (SliceElems [1, 2]).call twice
        (afterCalls (Transform (SliceElems [1, 2]).call twice) 2 0) =
      ((0, some GoError.EOF), 2) ∧
    Transform (SliceElems [1, 2]).call twice
        (afterCalls (Transform (SliceElems [1, 2]).call twice) 4 0) =
      ((0, some GoError.EOF), 2) :=
  ⟨Transform_idempotentTail (SliceElems [1, 2]).call twice (SliceElems_idempotentTail [1, 2])
    (fun _ _ => rfl), by decide, by decide⟩

/-- C12: for every producer that yields `vs` with nil errors and then returns
`(x, e)` with `e` being `io.EOF` (`errors.Is(e, io.EOF)`), when at each `select`
the context is not done and the channel accepts the send (`Delivers`), whatever
its buffering: `ToChanCtx` makes exactly the sends of `vs` on `c`, in pull order,
and returns `(x, nil)`, the value that came with `io.EOF`, which is not sent.  On
a buffered channel that is open and has room for `vs`, with no receiver, the
buffer then holds `vs` after what it held before and the channel is still
open. -/
theorem ToChanCtx_exhausted (sched : Scheduler ρ) (ctx : Context ρ) (c : SendChan ρ T)
    (next : σ → (T × Option GoError) × σ) (s0 s1 s2 : σ) (r0 r1 : ρ) (vs : List T) (x : T)
    (e : GoError) (wire : Wire T)
    (hvs : Yields next s0 vs s1) (hstop : next s1 = ((x, some e), s2))
    (he : errorsIs e GoError.EOF = true) (hc : Delivers sched ctx c r0 vs r1)
    (hopen : wire.chan.closed = false) (hctx : wire.ctxErr = none) (halone : wire.demand = 0)
    (hroom : wire.chan.queue.length + vs.length ≤ wire.chan.depth) :
    (∃ N, ∀ fuel, N ≤ fuel →
      ToChanCtx (onSinkSched sched) (onSinkCtx ctx) (onSinkChan c) (onSource next) fuel
        (s0, r0) = some ((x, none), (s2, r1))) ∧
    (∃ N, ∀ fuel, N ≤ fuel →
      ToChanCtx (onSinkSched wireSched) (onSinkCtx wireCtx) (onSinkChan wireChan)
        (onSource next) fuel (s0, wire) =
        some ((x, none),
          (s2, { wire with chan := { wire.chan with queue := wire.chan.queue ++ vs } }))) ∧
    ({ wire with chan := { wire.chan with queue := wire.chan.queue ++ vs } } : Wire T).chan.closed
      = false := by
  exact ⟨ToChanCtx_drains sched ctx c next s0 s1 s2 r0 r1 vs x e hvs hstop he hc,
    ToChanCtx_drains wireSched wireCtx wireChan next s0 s1 s2 wire _ vs x e hvs hstop he
      (Wire_delivers vs wire hopen hctx halone hroom),
    hopen⟩

/-- C12 at concrete inputs: the values 7, 8, 9 pumped into an unbuffered channel
whose receiver wants five values are all taken by the receiver, in this order,
and `ToChanCtx` returns `(0, nil)`; pumped into an empty buffer of depth 5 they
are in the buffer afterwards and the channel is open. -/
theorem ToChanCtx_exhausted_witness :
    ((∃ N, ∀ fuel, N ≤ fuel →
      ToChanCtx (onSinkSched wireSched) (onSinkCtx wireCtx) (onSinkChan wireChan)
        (onSource (SliceElems [7, 8, 9]).call) fuel
        (0, (⟨⟨[], 0, false⟩, 5, [], none, []⟩ : Wire Nat)) =
        some ((0, none), (3, ⟨⟨[], 0, false⟩, 2, [7, 8, 9], none, []⟩))) ∧
    (∃ N, ∀ fuel, N ≤ fuel →
      ToChanCtx (onSinkSched wireSched) (onSinkCtx wireCtx) (onSinkChan wireChan)
        (onSource (SliceElems [7, 8, 9]).call) fuel
        (0, (⟨⟨[], 5, false⟩, 0, [], none, []⟩ : Wire Nat)) =
        some ((0, none), (3, ⟨⟨[] ++ [7, 8, 9], 5, false⟩, 0, [], none, []⟩))) ∧
    (⟨[] ++ [7, 8, 9], 5, false⟩ : Channel Nat).closed = false) ∧
    ToChanCtx (onSinkSched wireSched) (onSinkCtx wireCtx) (onSinkChan wireChan)
        (onSource (SliceElems [7, 8, 9]).call) 4
        (0, (⟨⟨[], 5, false⟩, 0, [], none, []⟩ : Wire Nat)) =
      some ((0, none), (3, ⟨⟨[7, 8, 9], 5, false⟩, 0, [], none, []⟩)) :=
  ⟨ToChanCtx_exhausted wireSched wireCtx wireChan (SliceElems [7, 8, 9]).call 0 3 3
      ⟨⟨[], 0, false⟩, 5, [], none, []⟩
      ⟨⟨[], 0, false⟩, 2, [7, 8, 9], none, []⟩
      [7, 8, 9] 0 GoError.EOF
      ⟨⟨[], 5, false⟩, 0, [], none, []⟩
      (SliceElems_yields [7, 8, 9]) (by decide) (by decide)
      ⟨0, _, _, rfl, rfl, rfl, rfl, 0, _, _, rfl, rfl, rfl, rfl, 0, _, _, rfl, rfl, rfl, rfl,
        rfl⟩
      rfl rfl rfl (by decide),
    by decide⟩

/-- C13: after any number of full iterations of `ToChanCtx` (`Pumps`): if the
next pull returns `(v, nil)` and, after the pump has waited in the `select`, the
context is done with `ctx.Err() = err` while the channel cannot accept the send,
then `ToChanCtx` returns `(v, err)` in the state in which the `select` found the
context done, so `v` was not sent and `next` was not called again; if instead the
pull returns `(x, e)` with `e` non-nil and not `io.EOF`, then `ToChanCtx` returns
exactly `(x, e)` in the state left by that pull, without a `select`. -/
theorem ToChanCtx_hands_back (sched : Scheduler W) (ctx : Context W) (c : SendChan W T)
    (next : W → (T × Option GoError) × W) (w0 w : W) (vs : List T)
    (hrun : Pumps sched ctx c next w0 vs w) :
    (∀ (v : T) (w1 w2 : W) (j : Nat) (err : GoError),
      next w = ((v, none), w1) → StaysBlocked sched ctx c j w1 w2 →
      ctx.err w2 = some err → c.ready w2 = false →
      ∃ N, ∀ fuel, N ≤ fuel →
        ToChanCtx sched ctx c next fuel w0 = some ((v, some err), w2)) ∧
    (∀ (x : T) (e : GoError) (w1 : W),
      next w = ((x, some e), w1) → errorsIs e GoError.EOF = false →
      ∃ N, ∀ fuel, N ≤ fuel →
        ToChanCtx sched ctx c next fuel w0 = some ((x, some e), w1)) := by
  refine ⟨?_, ?_⟩
  · intro v w1 w2 j err hv hwait hdone hfull
    exact ToChanCtx_pumps sched ctx c next vs w0 w _ hrun
      (ToChanCtx_cancel sched ctx c next w w1 w2 v err j hv hwait hdone hfull)
  · intro x e w1 hx hne
    apply ToChanCtx_pumps sched ctx c next vs w0 w _ hrun
    obtain ⟨N, hN⟩ := ToChanCtx_stop sched ctx c next w w1 x e hx
    refine ⟨N, fun fuel hfuel => ?_⟩
    rw [hN fuel hfuel]
    simp [hne]

/-- C13 at concrete inputs.  With an unbuffered channel and no receiver the pump
pulls 7 and blocks; another goroutine cancels the context; `ToChanCtx` returns
`(7, context.Canceled)`, the cursor is at 1 and nothing was sent.  With the
producer `flaky` and a buffer of depth 5, the values 10 and 11 are sent and the
failing pull is returned as it is, `(99, err)`, with 99 not sent. -/
theorem ToChanCtx_hands_back_witness :
    (∃ N, ∀ fuel, N ≤ fuel →
      ToChanCtx (onSinkSched cancelWhileBlocked) (onSinkCtx wireCtx) (onSinkChan wireChan)
        (onSource (SliceElems [7, 8, 9]).call) fuel
        (0, (⟨⟨[], 0, false⟩, 0, [], none, []⟩ : Wire Nat)) =
        some ((7, some contextCanceled),
          (1, ⟨⟨[], 0, false⟩, 0, [], some contextCanceled, []⟩))) ∧
    (∃ N, ∀ fuel, N ≤ fuel →
      ToChanCtx (onSinkSched wireSched) (onSinkCtx wireCtx) (onSinkChan wireChan)
        (onSource flaky) fuel
        (0, (⟨⟨[], 5, false⟩, 0, [], none, []⟩ : Wire Nat)) =
        some ((99, some (GoError.errorString 1)),
          (3, ⟨⟨[10, 11], 5, false⟩, 0, [], none, []⟩))) :=
  ⟨(ToChanCtx_hands_back (onSinkSched cancelWhileBlocked) (onSinkCtx wireCtx)
      (onSinkChan wireChan) (onSource (SliceElems [7, 8, 9]).call)
      (0, ⟨⟨[], 0, false⟩, 0, [], none, []⟩)
      (0, ⟨⟨[], 0, false⟩, 0, [], none, []⟩)
      [] rfl).1 7 _ _ 1 contextCanceled rfl ⟨rfl, rfl, rfl⟩ rfl rfl,
    (ToChanCtx_hands_back (onSinkSched wireSched) (onSinkCtx wireCtx)
      (onSinkChan wireChan) (onSource flaky)
      (0, ⟨⟨[], 5, false⟩, 0, [], none, []⟩)
      (2, ⟨⟨[10, 11], 5, false⟩, 0, [], none, []⟩)
      [10, 11]
      ⟨_, 0, _, _, rfl, rfl, rfl, rfl, rfl, _, 0, _, _, rfl, rfl, rfl, rfl, rfl, rfl⟩).2
      99 (GoError.errorString 1) _ rfl (by decide)⟩

/-- C14, as stated, fails.  Take `K = 0`, so that the context is cancelled before
the pump starts, and a channel with a buffer of depth 1: both cases of the first
`select` can proceed, and the runtime may take the send.  With the `N = 2` values
7 and 8 the pump then sends 7 and returns `(8, context.Canceled)`: one value was
sent, not at most `K = 0`, and the value handed back is the second, not the
`(K+1)`-th.  With the single value 7 (`N = 1`) it sends 7 and returns `(0, nil)`,
without the cancellation error. -/
theorem ToChanCtx_cancel_race_refuted :
    wireCtx.err (⟨⟨[], 1, false⟩, 0, [], some contextCanceled, [false]⟩ : Wire Nat) = some contextCanceled ∧
    ToChanCtx (onSinkSched wireSched) (onSinkCtx wireCtx) (onSinkChan wireChan)
        (onSource (SliceElems [7, 8]).call) 2
        ((SliceElems [7, 8]).captured, (⟨⟨[], 1, false⟩, 0, [], some contextCanceled, [false]⟩ : Wire Nat)) =
      some ((8, some contextCanceled),
        (2, ⟨⟨[7], 1, false⟩, 0, [], some contextCanceled, []⟩)) ∧
    ToChanCtx (onSinkSched wireSched) (onSinkCtx wireCtx) (onSinkChan wireChan)
        (onSource (SliceElems [7]).call) 2
        ((SliceElems [7]).captured, (⟨⟨[], 1, false⟩, 0, [], some contextCanceled, [false]⟩ : Wire Nat)) =
      some ((0, none),
        (1, ⟨⟨[7], 1, false⟩, 0, [], some contextCanceled, []⟩)) := by
  decide

/-- C14, amended: for every slice `S` of `N` values, every `K < N` and every
channel, whatever its buffering, on which the first `K` sends are delivered while
the context is not done (`Delivers`) and which, once the cancellation has fired
(`ctx.Err() = err` after the `K` deliveries), cannot accept another send:
`ToChanCtx` over `SliceElems(S)` returns `(S[K], err)`, the `(K+1)`-th value with
the cancellation error, after exactly `K` sends; the cursor is at `K + 1` and the
channel side is as the `K` deliveries left it. -/
theorem ToChanCtx_cancel_after [Inhabited T] (S : List T) (K : Nat) (hK : K < S.length)
    (sched : Scheduler ρ) (ctx : Context ρ) (c : SendChan ρ T) (r0 r1 r2 : ρ) (j : Nat)
    (err : GoError)
    (hdel : Delivers sched ctx c r0 (S.take K) r1) (hwait : StaysBlocked sched ctx c j r1 r2)
    (hdone : ctx.err r2 = some err) (hfull : c.ready r2 = false) :
    ∃ N, ∀ fuel, N ≤ fuel →
      ToChanCtx (onSinkSched sched) (onSinkCtx ctx) (onSinkChan c)
        (onSource (SliceElems S).call) fuel ((SliceElems S).captured, r0) =
        some ((S.get ⟨K, hK⟩, some err), (K + 1, r2)) := by
  have hy : Yields (SliceElems S).call 0 (S.take K) K := by
    have h := SliceElems_yields_mid (S.take K) [] (S.drop K)
    simp only [List.nil_append, List.take_append_drop, List.length_nil, List.length_take] at h
    rwa [Nat.min_eq_left (Nat.le_of_lt hK)] at h
  have hlast : onSource (SliceElems S).call (K, r1) = ((S.get ⟨K, hK⟩, none), (K + 1, r1)) := by
    simp only [onSource]
    rw [SliceElems_call_lt S K hK]
  exact ToChanCtx_pumps _ _ _ _ (S.take K) (0, r0) (K, r1) _
    (Pumps_of_Yields_Delivers sched ctx c (SliceElems S).call (S.take K) 0 K r0 r1 hy hdel)
    (ToChanCtx_cancel _ _ _ _ (K, r1) (K + 1, r1) (K + 1, r2) (S.get ⟨K, hK⟩) err j hlast
      (StaysBlocked_onSink sched ctx c (K + 1) j r1 r2 hwait) hdone hfull)

/-- C14, amended, at a concrete input: `N = 3` values, `K = 1`, an unbuffered
channel whose receiver takes one value and then cancels.  The pump sends 7 and
returns `(8, context.Canceled)` with the cursor at 2. -/
theorem ToChanCtx_cancel_after_witness :
    (1 < [7, 8, 9].length) ∧
    (∃ N, ∀ fuel, N ≤ fuel →
      ToChanCtx (onSinkSched wireSched) (onSinkCtx wireCtx) (onSinkChan wireChan)
        (onSource (SliceElems [7, 8, 9]).call) fuel
        ((SliceElems [7, 8, 9]).captured,
          (⟨⟨[], 0, false⟩, 1, [], none, []⟩ : Wire Nat)) =
        some (([7, 8, 9].get ⟨1, by decide⟩, some contextCanceled),
          (1 + 1, ⟨⟨[], 0, false⟩, 0, [7], some contextCanceled, []⟩))) ∧
    [7, 8, 9].get ⟨1, by decide⟩ = 8 :=
  ⟨by decide,
    ToChanCtx_cancel_after [7, 8, 9] 1 (by decide) wireSched wireCtx wireChan
      ⟨⟨[], 0, false⟩, 1, [], none, []⟩
      ⟨⟨[], 0, false⟩, 0, [7], some contextCanceled, []⟩
      ⟨⟨[], 0, false⟩, 0, [7], some contextCanceled, []⟩
      0 contextCanceled ⟨0, _, _, rfl, rfl, rfl, rfl, rfl⟩ rfl rfl rfl,
    rfl⟩

/-- C15: with a channel as a FIFO queue and a closed flag, a call of the
producer `Chan(c)` on a non-empty queue removes and returns the oldest value with
a nil error, and on a closed, empty channel returns the zero value and `io.EOF`
and leaves the channel as it is.  On a closed channel no call blocks, the calls
are those of the total closure `ChanClosed`, and `ToSlice(Chan(c))` returns the
queue of `c`, in arrival order, with a nil error, leaving the channel empty and
closed; every later call returns the zero value and `io.EOF`. -/
theorem Chan_fifo [Inhabited T] (c : Channel T) :
    (∀ (v : T) (rest : List T), c.queue = v :: rest →
      Chan c = some ((v, none), { c with queue := rest })) ∧
    (c.queue = [] → c.closed = true → Chan c = some ((default, some GoError.EOF), c)) ∧
    (∀ h : c.closed = true,
      Chan c = some ((ChanClosed ⟨c, h⟩).1, (ChanClosed ⟨c, h⟩).2.1) ∧
      (∀ extra : Nat,
        ToSlice ChanClosed (c.queue.length + 1 + extra) ⟨c, h⟩ =
          some ((c.queue, none), ⟨{ c with queue := [] }, h⟩)) ∧
      (∀ n : Nat,
        ChanClosed (afterCalls (@ChanClosed T _) n ⟨{ c with queue := [] }, h⟩) =
          ((default, some GoError.EOF), ⟨{ c with queue := [] }, h⟩))) := by
  obtain ⟨q, d, cl⟩ := c
  refine ⟨?_, ?_, ?_⟩
  · intro v rest hq
    simp only at hq
    subst hq
    simp [Chan, Channel.recv]
  · intro hq hcl
    simp only at hq hcl
    subst hq
    subst hcl
    simp [Chan, Channel.recv]
  · intro h
    simp only at h
    subst h
    refine ⟨?_, ?_, ?_⟩
    · cases q with
      | nil => rfl
      | cons v rest => rfl
    · intro extra
      unfold ToSlice
      rw [Nat.add_assoc, ToSliceLoop_yields ChanClosed q _ _ [] (1 + extra)
        (ChanClosed_yields d q), Nat.add_comm 1 extra,
        ToSliceLoop_stop ChanClosed _ _ default GoError.EOF _ extra (ChanClosed_nil d)]
      simp [errorsIs]
    · intro n
      exact ChanClosed_tail d n

/-- C15 at a concrete input: a closed channel holding 5 and 6 gives `[5, 6]` and
nil, and the call after that returns `io.EOF`; on an open, empty channel the
call blocks. -/
theorem Chan_fifo_witness :
    Chan (⟨[5, 6], 2, true⟩ : Channel Nat) = some ((5, none), ⟨[6], 2, true⟩) ∧
    Chan (⟨[], 2, true⟩ : Channel Nat) = some ((default, some GoError.EOF), ⟨[], 2, true⟩) ∧
    ToSlice ChanClosed (2 + 1 + 0) ⟨(⟨[5, 6], 2, true⟩ : Channel Nat), rfl⟩ =
      some (([5, 6], none), ⟨⟨[], 2, true⟩, rfl⟩) ∧
    ChanClosed (afterCalls ChanClosed 3 ⟨(⟨[], 2, true⟩ : Channel Nat), rfl⟩) =
      ((default, some GoError.EOF), ⟨⟨[], 2, true⟩, rfl⟩) ∧
    Chan (⟨[], 2, false⟩ : Channel Nat) = none :=
  ⟨(Chan_fifo (⟨[5, 6], 2, true⟩ : Channel Nat)).1 5 [6] rfl,
    (Chan_fifo (⟨[], 2, true⟩ : Channel Nat)).2.1 rfl rfl,
    ((Chan_fifo (⟨[5, 6], 2, true⟩ : Channel Nat)).2.2 rfl).2.1 0,
    ((Chan_fifo (⟨[5, 6], 2, true⟩ : Channel Nat)).2.2 rfl).2.2 3,
    by decide⟩

/-- C16, as stated, fails for `Map`: `Map[K comparable, V]` accepts `float64`
keys, and on the map with the single entry `NaN: 1` the first call of `Map(m)`
returns `(NaN, 1)` with a nil error, while `m[NaN]` finds no entry and is the zero
value, not 1. -/
theorem Map_index_refuted :
    [(FloatKey.nan, (1 : Nat))].Pairwise (fun a b => floatEq a.1 b.1 = false) ∧
    (Map [(FloatKey.nan, (1 : Nat))]).call (Map [(FloatKey.nan, (1 : Nat))]).captured =
      (((FloatKey.nan, 1), none), none) ∧
    mapIndex floatEq [(FloatKey.nan, (1 : Nat))] FloatKey.nan = none ∧
    (mapIndex floatEq [(FloatKey.nan, (1 : Nat))] FloatKey.nan).getD default ≠ 1 := by
  decide

/-- C16, amended: for every key type with its operator `==` (`eq`, symmetric,
not necessarily reflexive) and every map with the entries `M`, no two of which
have `==` keys, that `reflect` enumerates in the order `m`, each entry once: the
producer `MapKeys(m)` returns the keys of `m` in this order, `len(M)` values with
a nil error, pairwise distinct under `==` and exactly the keys of `M`, and from
then on every call returns the zero value and `io.EOF`; for the empty map the
first call does.  The same holds for `Map(m)`, which returns the entries, and
each `(k, v)` it returns satisfies `M[k] = v` whenever `k == k`.  -/
theorem MapKeys_enumerates {K V : Type} [Inhabited K] [Inhabited V] (eq : K → K → Bool)
    (hsymm : ∀ a b, eq a b = eq b a)
    (M m : List (K × V)) (hkeys : M.Pairwise (fun a b => eq a.1 b.1 = false))
    (henum : m.Perm M) :
    (Yields (MapKeys m).call (MapKeys m).captured (m.map Prod.fst) none ∧
      (∀ n, (MapKeys m).call (afterCalls (MapKeys m).call n none) =
        ((default, some GoError.EOF), none)) ∧
      (m.map Prod.fst).length = M.length ∧
      (m.map Prod.fst).Pairwise (fun a b => eq a b = false) ∧
      (m.map Prod.fst).Perm (M.map Prod.fst) ∧
      (M = [] → (MapKeys m).call (MapKeys m).captured = ((default, some GoError.EOF), none))) ∧
    (Yields (Map m).call (Map m).captured m none ∧
      (∀ n, (Map m).call (afterCalls (Map m).call n none) =
        (((default, default), some GoError.EOF), none)) ∧
      m.length = M.length ∧ m.Pairwise (fun a b => eq a.1 b.1 = false) ∧ m.Perm M ∧
      (∀ kv ∈ m, eq kv.1 kv.1 = true → mapIndex eq M kv.1 = some kv.2) ∧
      (M = [] → (Map m).call (Map m).captured =
        (((default, default), some GoError.EOF), none))) := by
  have hpm : m.Pairwise (fun a b => eq a.1 b.1 = false) := by
    refine (List.Perm.pairwise_iff ?_ henum).mpr hkeys
    intro a b hab
    rw [hsymm]
    exact hab
  have hnd : (m.map Prod.fst).Pairwise (fun a b => eq a b = false) :=
    List.pairwise_map.mpr hpm
  have hempty : M = [] → m = [] := by
    intro h
    subst h
    exact List.Perm.eq_nil henum
  refine ⟨⟨MapKeys_yields m m, MapKeys_tail m, ?_, hnd, henum.map Prod.fst, ?_⟩,
    ⟨Map_yields m m, Map_tail m, henum.length_eq, hpm, henum, ?_, ?_⟩⟩
  · rw [List.length_map]
    exact henum.length_eq
  · intro h
    rw [hempty h]
    rfl
  · intro kv hmem hrefl
    exact mapIndex_of_mem eq M hkeys kv (henum.mem_iff.mp hmem) hrefl
  · intro h
    rw [hempty h]
    rfl

/-- C16, amended, at a concrete input: the `float64`-keyed map `{1: 10, NaN: 7,
2: 20, NaN: 8}` enumerated in the order NaN, 2, 1, NaN gives these four keys and
then `io.EOF`; `Map` returns the four entries, `m[2]` is 20 and `m[NaN]` finds
nothing. -/
theorem MapKeys_enumerates_witness :
    (∀ a b, floatEq a b = floatEq b a) ∧
    [(FloatKey.num 1, (10 : Nat)), (FloatKey.nan, 7), (FloatKey.num 2, 20),
      (FloatKey.nan, 8)].Pairwise (fun a b => floatEq a.1 b.1 = false) ∧
    ([(FloatKey.nan, (8 : Nat)), (FloatKey.num 2, 20), (FloatKey.num 1, 10),
      (FloatKey.nan, 7)]).Perm
      [(FloatKey.num 1, 10), (FloatKey.nan, 7), (FloatKey.num 2, 20), (FloatKey.nan, 8)] ∧
    (∀ kv ∈ [(FloatKey.nan, (8 : Nat)), (FloatKey.num 2, 20), (FloatKey.num 1, 10),
        (FloatKey.nan, 7)],
      floatEq kv.1 kv.1 = true →
      mapIndex floatEq
        [(FloatKey.num 1, 10), (FloatKey.nan, 7), (FloatKey.num 2, 20), (FloatKey.nan, 8)]
        kv.1 = some kv.2) ∧
    ToSlice (MapKeys [(FloatKey.nan, (8 : Nat)), (FloatKey.num 2, 20), (FloatKey.num 1, 10),
        (FloatKey.nan, 7)]).call 5
        (MapKeys [(FloatKey.nan, (8 : Nat)), (FloatKey.num 2, 20), (FloatKey.num 1, 10),
          (FloatKey.nan, 7)]).captured =
      some (([FloatKey.nan, FloatKey.num 2, FloatKey.num 1, FloatKey.nan], none), none) ∧
    ToSlice (Map [(FloatKey.nan, (8 : Nat)), (FloatKey.num 2, 20), (FloatKey.num 1, 10),
        (FloatKey.nan, 7)]).call 5
        (Map [(FloatKey.nan, (8 : Nat)), (FloatKey.num 2, 20), (FloatKey.num 1, 10),
          (FloatKey.nan, 7)]).captured =
      some (([(FloatKey.nan, 8), (FloatKey.num 2, 20), (FloatKey.num 1, 10),
        (FloatKey.nan, 7)], none), none) ∧
    mapIndex floatEq
      [(FloatKey.num 1, (10 : Nat)), (FloatKey.nan, 7), (FloatKey.num 2, 20), (FloatKey.nan, 8)]
      (FloatKey.num 2) = some 20 ∧
    mapIndex floatEq
      [(FloatKey.num 1, (10 : Nat)), (FloatKey.nan, 7), (FloatKey.num 2, 20), (FloatKey.nan, 8)]
      FloatKey.nan = none :=
  ⟨fun a b => by cases a <;> cases b <;> simp [floatEq, eq_comm],
    by decide, by decide,
    (MapKeys_enumerates floatEq
      (fun a b => by cases a <;> cases b <;> simp [floatEq, eq_comm])
      [(FloatKey.num 1, (10 : Nat)), (FloatKey.nan, 7), (FloatKey.num 2, 20), (FloatKey.nan, 8)]
      [(FloatKey.nan, 8), (FloatKey.num 2, 20), (FloatKey.num 1, 10), (FloatKey.nan, 7)]
      (by decide) (by decide)).2.2.2.2.2.2.1,
    rfl, rfl, rfl, rfl⟩

/-- C18: a driver ends with a nil error on any producer error `e` for which
`errors.Is(e, io.EOF)` holds, whether `e` is `io.EOF`, wraps it, or comes from a
`Transform` function.  For every slice `S = pre ++ x :: post` and every `f` that
returns the values `us` with nil errors on `pre` and an error `e` of this kind on
`x`, the `k`-th element with `k = len(pre) + 1`: `ToSlice(Transform(SliceElems(S),
f))` returns the `k - 1` values `us` and a nil error; the failure of `f` is not
reported and the cursor stops at `k`, so `post` is never pulled.  `Iterate` and
`Reduce` end with a nil error on such a producer error as well. -/
theorem ToSlice_Transform_eof_truncates [Inhabited T] [Inhabited U] (pre post : List T)
    (x : T) (f : T → ρ → (U × Option GoError) × ρ) (r0 r1 r2 : ρ) (us : List U) (u : U)
    (e : GoError) (extra : Nat)
    (hpre : Maps f r0 pre us r1) (hx : f x r1 = ((u, some e), r2))
    (he : errorsIs e GoError.EOF = true)
    (next : W → (T × Option GoError) × W) (emit : T → W → Option GoError × W)
    (g : T → V → W → (V × Option GoError) × W) (init : V) (w w1 : W) (y : T)
    (hnext : next w = ((y, some e), w1)) :
    ToSlice (Transform (onSource (SliceElems (pre ++ x :: post)).call) (onSink f))
        (pre.length + 1 + extra) ((SliceElems (pre ++ x :: post)).captured, r0) =
      some ((us, none), (pre.length + 1, r2)) ∧
    us.length = pre.length ∧
    Iterate next emit (extra + 1) w = some (none, w1) ∧
    Reduce next init g (extra + 1) w = some ((init, none), w1) ∧
    ToSlice next (extra + 1) w = some (([], none), w1) := by
  have hy : Yields (SliceElems (pre ++ x :: post)).call 0 pre pre.length := by
    have h := SliceElems_yields_mid pre [] (x :: post)
    simpa using h
  have hlast : (SliceElems (pre ++ x :: post)).call pre.length = ((x, none), pre.length + 1) := by
    rw [SliceElems_call_lt (pre ++ x :: post) pre.length (by simp)]
    simp [List.getElem_append_right]
  have hylen : ∀ (xs : List T) (r t : ρ) (vs : List U), Maps f r xs vs t →
      vs.length = xs.length := by
    intro xs
    induction xs with
    | nil => intro r t vs h; simp [h.1]
    | cons a xs ih =>
      intro r t vs h
      obtain ⟨u1, r3, us1, _, h2, h3⟩ := h
      subst h2
      simp [ih r3 t us1 h3]
  have hlen := hylen pre r0 r1 us hpre
  refine ⟨?_, hlen, ?_, ?_, ?_⟩
  · have hrun := Yields_Transform (SliceElems (pre ++ x :: post)).call f pre 0 pre.length
      r0 r1 us hy hpre
    have hstop : Transform (onSource (SliceElems (pre ++ x :: post)).call) (onSink f)
        (pre.length, r1) = ((u, some e), (pre.length + 1, r2)) := by
      simp [Transform, onSource, onSink, hlast, hx]
    unfold ToSlice
    rw [← hlen, Nat.add_assoc,
      ToSliceLoop_yields _ us ((SliceElems (pre ++ x :: post)).captured, r0)
        (pre.length, r1) [] (1 + extra) hrun,
      Nat.add_comm 1 extra, ToSliceLoop_stop _ _ _ u e _ extra hstop]
    simp [he, hlen]
  · rw [Iterate, hnext]
    simp [he]
  · unfold Reduce
    rw [ReduceLoop_stop next g w w1 y e init extra hnext]
    simp [he]
  · unfold ToSlice
    rw [ToSliceLoop_stop next w w1 y e [] extra hnext]
    simp [he]

/-- C18 at a concrete input: on `[1, 2, 3]` a function that fails on its second
call with an error wrapping `io.EOF` makes `ToSlice` return `[10]` and nil; the
elements 2 and 3 are dropped without an error.  A producer that returns that
error at once makes the three drivers return nil. -/
theorem ToSlice_Transform_eof_truncates_witness :
    errorsIs (GoError.wrapError 9 GoError.EOF) GoError.EOF = true ∧
    (ToSlice (Transform (onSource (SliceElems ([1] ++ 2 :: [3])).call) (onSink wrapsEOFOnSecond))
        ([1].length + 1 + 0) ((SliceElems ([1] ++ 2 :: [3])).captured, 0) =
      some (([10], none), ([1].length + 1, 2)) ∧
    [10].length = [1].length ∧
    Iterate (fun w : Nat => (((0 : Nat), some (GoError.wrapError 9 GoError.EOF)), w + 1)) summing
        (0 + 1) 0 = some (none, 1) ∧
    Reduce (fun w : Nat => (((0 : Nat), some (GoError.wrapError 9 GoError.EOF)), w + 1)) 5
        (pureFold plus) (0 + 1) 0 = some ((5, none), 1) ∧
    ToSlice (fun w : Nat => (((0 : Nat), some (GoError.wrapError 9 GoError.EOF)), w + 1))
        (0 + 1) 0 = some (([], none), 1)) :=
  ⟨by decide,
    ToSlice_Transform_eof_truncates [1] [3] 2 wrapsEOFOnSecond 0 1 2 [10] 0
      (GoError.wrapError 9 GoError.EOF) 0 ⟨10, 1, [], by decide, rfl, rfl, rfl⟩ (by decide)
      (by decide) (fun w : Nat => (((0 : Nat), some (GoError.wrapError 9 GoError.EOF)), w + 1))
      summing (pureFold plus) 5 0 1 0 rfl⟩

end claims

end iterate

namespace unsafeslice

theorem toInt_small (v : Nat) (h : v < 2 ^ 63) : toInt v = (v : Int) := by
  have h1 : v % 2 ^ 64 = v := Nat.mod_eq_of_lt (by omega)
  unfold toInt
  rw [h1, if_pos h]

theorem toUintptr_small (v : Nat) (h : v < 2 ^ 63) : toUintptr (v : Int) = v := by
  unfold toUintptr
  have h1 : ((v : Int) % 2 ^ 64) = (v : Int) := Int.emod_eq_of_lt (by omega) (by omega)
  rw [h1]
  simp

theorem no_overflow (v : Nat) (h : v < 2 ^ 63) :
    ¬ (toInt v < 0 ∨ toUintptr (toInt v) ≠ v) := by
  rw [toInt_small v h, toUintptr_small v h]
  intro hor
  rcases hor with h1 | h1
  · exact absurd h1 (not_lt.mpr (Int.ofNat_nonneg v))
  · exact h1 rfl

theorem Convert_fits (n c e d : Nat) (hd : 0 < d) (hnc : n ≤ c) (hfit : c * e < 2 ^ 63) :
    Convert n c e d =
      if (c * e) % d ≠ 0 then Except.error Panic.capNotMultiple
      else if (n * e) % d ≠ 0 then Except.error Panic.lenNotMultiple
      else Except.ok (n * e / d, c * e / d) := by
  have hne : n * e ≤ c * e := Nat.mul_le_mul_right e hnc
  have hc : (c * e) % 2 ^ 64 = c * e := Nat.mod_eq_of_lt (by omega)
  have hn : (n * e) % 2 ^ 64 = n * e := Nat.mod_eq_of_lt (by omega)
  have hcd : c * e / d < 2 ^ 63 := lt_of_le_of_lt (Nat.div_le_self _ _) hfit
  have hnd : n * e / d < 2 ^ 63 := lt_of_le_of_lt (Nat.div_le_self _ _) (by omega)
  have hle : ¬ (c * e / d < n * e / d) := not_lt.mpr (Nat.div_le_div_right hne)
  have hd0 : d ≠ 0 := by omega
  unfold Convert
  simp only [hc, hn]
  rw [if_neg hd0, if_neg (no_overflow _ hcd), if_neg (no_overflow _ hnd), if_neg hle]

/-- C17: for a source slice with length `n`, capacity `c` and elements of `e`
bytes, whose backing array fits the address space (`n ≤ c` and `c * e < 2^63`),
and a destination element size `d > 0`: `Convert` panics with the capacity
message if `c * e` is not a multiple of `d` (whatever `n * e` is, the capacity
check being first), panics with the length message if `c * e` is a multiple and
`n * e` is not, and otherwise returns a slice of length `n * e / d` and capacity
`c * e / d`, so that `len(dst) * d = n * e`, `cap(dst) * d = c * e` and
`len(dst) ≤ cap(dst)`. -/
theorem Convert_preserves_bytes (n c e d : Nat) (hd : 0 < d) (hnc : n ≤ c)
    (hfit : c * e < 2 ^ 63) :
    (¬ d ∣ c * e → Convert n c e d = Except.error Panic.capNotMultiple) ∧
    (d ∣ c * e → ¬ d ∣ n * e → Convert n c e d = Except.error Panic.lenNotMultiple) ∧
    (d ∣ c * e → d ∣ n * e →
      Convert n c e d = Except.ok (n * e / d, c * e / d) ∧
        n * e / d * d = n * e ∧ c * e / d * d = c * e ∧ n * e / d ≤ c * e / d) := by
  have hmain := Convert_fits n c e d hd hnc hfit
  refine ⟨?_, ?_, ?_⟩
  · intro hc
    have h1 : (c * e) % d ≠ 0 := fun h => hc (Nat.dvd_of_mod_eq_zero h)
    rw [hmain, if_pos h1]
  · intro hc hn
    have h1 : ¬ ((c * e) % d ≠ 0) := fun h => h (Nat.mod_eq_zero_of_dvd hc)
    have h2 : (n * e) % d ≠ 0 := fun h => hn (Nat.dvd_of_mod_eq_zero h)
    rw [hmain, if_neg h1, if_pos h2]
  · intro hc hn
    have h1 : ¬ ((c * e) % d ≠ 0) := fun h => h (Nat.mod_eq_zero_of_dvd hc)
    have h2 : ¬ ((n * e) % d ≠ 0) := fun h => h (Nat.mod_eq_zero_of_dvd hn)
    refine ⟨?_, Nat.div_mul_cancel hn, Nat.div_mul_cancel hc, ?_⟩
    · rw [hmain, if_neg h1, if_neg h2]
    · exact Nat.div_le_div_right (Nat.mul_le_mul_right e hnc)

/-- C17 at concrete inputs: two of four 4-byte elements seen as 8-byte elements
give length 1 and capacity 2; with capacity 3 the capacity check panics, also
when the length would pass; with length 3 of capacity 4 the length check
panics. -/
theorem Convert_preserves_bytes_witness :
    (Convert 2 4 4 8 = Except.ok (2 * 4 / 8, 4 * 4 / 8) ∧
      2 * 4 / 8 * 8 = 2 * 4 ∧ 4 * 4 / 8 * 8 = 4 * 4 ∧ 2 * 4 / 8 ≤ 4 * 4 / 8) ∧
    Convert 2 3 4 8 = Except.error Panic.capNotMultiple ∧
    Convert 3 4 4 8 = Except.error Panic.lenNotMultiple ∧
    Convert 2 4 4 8 = Except.ok (1, 2) :=
  ⟨(Convert_preserves_bytes 2 4 4 8 (by decide) (by decide) (by decide)).2.2
      (by decide) (by decide),
    (Convert_preserves_bytes 2 3 4 8 (by decide) (by decide) (by decide)).1 (by decide),
    (Convert_preserves_bytes 3 4 4 8 (by decide) (by decide) (by decide)).2.1
      (by decide) (by decide),
    rfl⟩

end unsafeslice
